import Mathlib

/-!
# The arbitrary-precision unsigned integers of comlib (`com_biguint.c`)

A shallow embedding of `src/comlib/com_biguint.c`.

* A `com_biguint` is its vector of 32-bit words, least significant first: a `List Nat`.
* Every public operation mutates a destination and reads one or two operands through
  pointers that may be the destination itself.  An operand is therefore an `Operand`:
  either the destination's own storage (`Operand.dest`, every read sees the words written
  so far) or separate storage with given contents (`Operand.other ws`).
* Array reads and writes are bounds-checked; an access outside the vector, a shift of a
  32-bit value by 32 or more, or a failed `com_assert_m` ends the run with a `Fault`.
* `usize` is 64 bits wide, `int` 32 bits wide; pointers are non-null, vectors are as large
  as requested and the allocator serves every request.
-/

namespace ComBigUint

/-! ## Outcomes -/

/-- The ways a run can end without returning. -/
inductive Fault
  | assertion
  | outOfBounds
  | shiftTooWide
  | outOfFuel
  deriving DecidableEq, Repr

/-- A run either returns a value or ends with a fault. -/
abbrev Run (α : Type) : Type := Except Fault α

instance instDecidableEqRun {α : Type} [DecidableEq α] : DecidableEq (Except Fault α) :=
  fun x y =>
    match x, y with
    | .ok a, .ok b =>
      if h : a = b then isTrue (by rw [h]) else isFalse (fun e => h (by cases e; rfl))
    | .error e, .error f =>
      if h : e = f then isTrue (by rw [h]) else isFalse (fun e => h (by cases e; rfl))
    | .ok _, .error _ => isFalse (fun e => by cases e)
    | .error _, .ok _ => isFalse (fun e => by cases e)

/-- Modelled from the spec: the assertion `com_assert_m(cond, msg)` of `com_assert.h` (not under
src/), a "fatal precondition violation": a failed condition ends the run. -/
def com_assert_m (cond : Bool) : Run Unit :=
  if cond then pure () else throw Fault.assertion

/-! ## Constants and machine arithmetic -/

/-- Modelled from the spec: the constant `u32_max_m` of `com_define.h` (not under src/), the
largest value of a word, "a 32-bit unsigned unit": 2^32 - 1, itself of the 32-bit unsigned
type. -/
def u32_max_m : Nat := 4294967295

/-- Modelled from the spec: the constant `u64_max_m` of `com_define.h` (not under src/), the
largest native 64-bit integer, 2^64 - 1. -/
def u64_max_m : Nat := 18446744073709551615

/-- Conversion to `u32`: the low 32 bits. -/
def to_u32 (x : Nat) : Nat := x % 2 ^ 32

/-- Conversion to `u64`: the low 64 bits. -/
def to_u64 (x : Nat) : Nat := x % 2 ^ 64

/-- Subtraction of `usize` values, which wraps around below zero. -/
def usize_sub (x y : Nat) : Nat := (x + 2 ^ 64 - y) % 2 ^ 64

/-- Modelled from the spec: the enum `com_math_cmptype` of `com_imath.h` (not under src/), the
three answers `GREATER`, `LESS` and `EQUAL` of a comparison. -/
inductive com_math_cmptype
  | com_math_LESS
  | com_math_EQUAL
  | com_math_GREATER
  deriving DecidableEq, Repr

open com_math_cmptype

/-! ## The digit store -/

/-- Modelled from the spec: `com_vec_set_len` of `com_vec.c` (not under src/), "setLength(n)
(grow/shrink, new words undefined/zero per call site)": the first `n` words are kept, and a
word the vector did not have before is undefined, here `fresh i` at index `i`. -/
def com_vec_set_len (fresh : Nat → Nat) (v : List Nat) (n : Nat) : List Nat :=
  (List.range n).map (fun i => v.getD i (fresh i))

/-- Modelled from the spec: `com_vec_push` of `com_vec.c` (not under src/), "append(word)". -/
def com_vec_push (v : List Nat) (w : Nat) : List Nat := v ++ [w]

/-- Modelled from the spec: `com_vec_insert` of `com_vec.c` (not under src/) followed by
`com_mem_zero`, "insertZeros(at, count)" at position 0. -/
def com_vec_insert_zeros (v : List Nat) (count : Nat) : List Nat :=
  List.replicate count 0 ++ v

/-- Modelled from the spec: `com_mem_zero_arr_m(arr, n, u32)` of `com_mem.h` (not under src/),
"zero-fill the bottom `words` result words": the first `n` words become zero. -/
def com_mem_zero_arr_m (v : List Nat) (n : Nat) : Run (List Nat) :=
  if n ≤ v.length then pure (List.replicate n 0 ++ v.drop n) else throw Fault.outOfBounds

/-- Modelled from the spec: `com_mem_move(dest, src, n)` of `com_mem.h` (not under src/), the
copy behind "set from another BigUint": the first `n` words of `src` are copied over the
first `n` words of `dest`. -/
def com_mem_move (dest src : List Nat) (n : Nat) : Run (List Nat) :=
  if n ≤ dest.length ∧ n ≤ src.length then pure (src.take n ++ dest.drop n)
  else throw Fault.outOfBounds

/-- A checked read `arr[i]`. -/
def rdl (arr : List Nat) (i : Nat) : Run Nat :=
  match arr[i]? with
  | some w => pure w
  | none => throw Fault.outOfBounds

/-- A checked write `arr[i] = w`. -/
def wr (arr : List Nat) (i : Nat) (w : Nat) : Run (List Nat) :=
  if i < arr.length then pure (arr.set i w) else throw Fault.outOfBounds

/-- A pointer to an operand, as seen from the destination of an operation. -/
inductive Operand
  | dest
  | other (ws : List Nat)
  deriving DecidableEq, Repr

/-- The words an operand pointer currently sees, `d` being the destination's words. -/
def Operand.view (o : Operand) (d : List Nat) : List Nat :=
  match o with
  | .dest => d
  | .other ws => ws

/-- A checked read `a[i]` through an operand pointer. -/
def rd (o : Operand) (d : List Nat) (i : Nat) : Run Nat := rdl (o.view d) i

/-- A loop `for (usize i = lo; i < lo + n; i++) body`. -/
def loopUp {σ : Type} (body : Nat → σ → Run σ) : Nat → Nat → σ → Run σ
  | 0, _, s => pure s
  | n + 1, i, s => body i s >>= fun t => loopUp body n (i + 1) t

/-- A loop `for (usize i = n; i > 0; i--) body`. -/
def loopDown {σ : Type} (body : Nat → σ → Run σ) : Nat → σ → Run σ
  | 0, s => pure s
  | n + 1, s => body (n + 1) s >>= fun t => loopDown body n t

/-- The loop that counts the zero words at the most significant end:
`for (usize i = dest_len; i > 0; i--) { if (dest_arr[i - 1] == 0) zeros_len++; else break; }` -/
def count_zeros (d : List Nat) : Nat → Nat → Run Nat
  | 0, zeros_len => pure zeros_len
  | i + 1, zeros_len =>
    rdl d i >>= fun w => if w = 0 then count_zeros d i (zeros_len + 1) else pure zeros_len

/-! ## Value and representation invariant -/

/-- The value of a word sequence: the sum of `word[i] * 2^(32*i)`. -/
def value : List Nat → Nat
  | [] => 0
  | w :: ws => w + 2 ^ 32 * value ws

/-- Every word is a 32-bit unsigned value. -/
def wellFormed (l : List Nat) : Prop := ∀ w ∈ l, w < 2 ^ 32

/-- Invariant I1: no most significant zero word; zero is the empty sequence. -/
def normalized (l : List Nat) : Prop := l.getLast? ≠ some 0

instance instDecidableWellFormed (l : List Nat) : Decidable (wellFormed l) := by
  unfold wellFormed; infer_instance

instance instDecidableNormalized (l : List Nat) : Decidable (normalized l) := by
  unfold normalized; infer_instance

/-! ## Construction, assignment, conversion -/

/-- The function `com_biguint_set`. -/
def com_biguint_set (fresh : Nat → Nat) (d : List Nat) (src : Operand) : Run (List Nat) :=
  let s := src.view d
  let len := s.length
  com_mem_move (com_vec_set_len fresh d len) s len

/-- The function `com_biguint_set_u64`. -/
def com_biguint_set_u64 (fresh : Nat → Nat) (d : List Nat) (val : Nat) : Run (List Nat) :=
  if val = 0 then
    pure (com_vec_set_len fresh d 0)
  else if val ≤ u32_max_m then
    wr (com_vec_set_len fresh d 1) 0 (to_u32 (val &&& 0x00000000FFFFFFFF))
  else
    wr (com_vec_set_len fresh d 2) 0 (to_u32 (val &&& 0x00000000FFFFFFFF)) >>= fun v =>
    wr v 1 (to_u32 (val >>> 32))

/-- The function `com_biguint_get_u64`. -/
def com_biguint_get_u64 (a : List Nat) : Run Nat :=
  match a.length with
  | 0 => pure 0
  | 1 => rdl a 0
  | 2 => rdl a 1 >>= fun hi => rdl a 0 >>= fun lo => pure (to_u64 (to_u64 (hi <<< 32) + lo))
  | _ => pure u64_max_m

/-- The function `com_biguint_fits_u64`. -/
def com_biguint_fits_u64 (a : List Nat) : Bool := a.length ≤ 2

/-- The function `com_biguint_is_zero`. -/
def com_biguint_is_zero (a : List Nat) : Bool := a.length = 0

/-! ## Bitwise operations -/

/-- The common last step of several operations: count the most significant zero words of
the first `dest_len` words and truncate the vector to `dest_len - zeros_len` words. -/
def trim_zeros (fresh : Nat → Nat) (d : List Nat) (dest_len : Nat) : Run (List Nat) :=
  count_zeros d dest_len 0 >>= fun zeros_len =>
  pure (com_vec_set_len fresh d (dest_len - zeros_len))

/-- The function `internal_value_and`. -/
def internal_value_and (fresh : Nat → Nat) (d : List Nat) (a : Operand) (alen : Nat)
    (b : Operand) (blen : Nat) : Run (List Nat) :=
  com_assert_m (decide (alen ≥ blen)) >>= fun _ =>
  let dest_len := blen
  loopUp (fun i dest_arr =>
      rd a dest_arr i >>= fun x => rd b dest_arr i >>= fun y => wr dest_arr i (x &&& y))
    dest_len 0 (com_vec_set_len fresh d dest_len) >>= fun dest_arr =>
  trim_zeros fresh dest_arr dest_len

/-- The function `com_biguint_and`. -/
def com_biguint_and (fresh : Nat → Nat) (d : List Nat) (a b : Operand) : Run (List Nat) :=
  let alen := (a.view d).length
  let blen := (b.view d).length
  if blen > alen then internal_value_and fresh d b blen a alen
  else internal_value_and fresh d a alen b blen

/-- The function `internal_value_or`. -/
def internal_value_or (fresh : Nat → Nat) (d : List Nat) (a : Operand) (alen : Nat)
    (b : Operand) (blen : Nat) : Run (List Nat) :=
  com_assert_m (decide (alen ≥ blen)) >>= fun _ =>
  let dest_len := alen
  loopUp (fun i dest_arr =>
      rd a dest_arr i >>= fun x => rd b dest_arr i >>= fun y => wr dest_arr i (x ||| y))
    blen 0 (com_vec_set_len fresh d dest_len) >>= fun dest_arr =>
  loopUp (fun i dest_arr => rd a dest_arr i >>= fun x => wr dest_arr i x)
    (dest_len - blen) blen dest_arr

/-- The function `com_biguint_or`. -/
def com_biguint_or (fresh : Nat → Nat) (d : List Nat) (a b : Operand) : Run (List Nat) :=
  let alen := (a.view d).length
  let blen := (b.view d).length
  if blen > alen then internal_value_or fresh d b blen a alen
  else internal_value_or fresh d a alen b blen

/-- The function `internal_value_xor`. -/
def internal_value_xor (fresh : Nat → Nat) (d : List Nat) (a : Operand) (alen : Nat)
    (b : Operand) (blen : Nat) : Run (List Nat) :=
  com_assert_m (decide (alen ≥ blen)) >>= fun _ =>
  let dest_len := blen
  loopUp (fun i dest_arr =>
      rd a dest_arr i >>= fun x => rd b dest_arr i >>= fun y => wr dest_arr i (x ^^^ y))
    dest_len 0 (com_vec_set_len fresh d dest_len) >>= fun dest_arr =>
  trim_zeros fresh dest_arr dest_len

/-- The function `com_biguint_xor`. -/
def com_biguint_xor (fresh : Nat → Nat) (d : List Nat) (a b : Operand) : Run (List Nat) :=
  let alen := (a.view d).length
  let blen := (b.view d).length
  if blen > alen then internal_value_xor fresh d b blen a alen
  else internal_value_xor fresh d a alen b blen

/-- A shift `x << n` of a 32-bit value: undefined for `n ≥ 32`, else the low 32 bits. -/
def shl32 (x n : Nat) : Run Nat :=
  if n < 32 then pure (to_u32 (x <<< n)) else throw Fault.shiftTooWide

/-- A shift `x >> n` of a 32-bit value: undefined for `n ≥ 32`. -/
def shr32 (x n : Nat) : Run Nat :=
  if n < 32 then pure (x >>> n) else throw Fault.shiftTooWide

/-- The function `com_biguint_lshift`. -/
def com_biguint_lshift (fresh : Nat → Nat) (d : List Nat) (a : Operand) (bits : Nat) :
    Run (List Nat) :=
  let alen := (a.view d).length
  if alen = 0 then
    com_biguint_set_u64 fresh d 0
  else
    let words := bits / 32
    let rbits := bits % 32
    let dvec := com_vec_set_len fresh d ((a.view d).length + words)
    rd a dvec (alen - 1) >>= fun top =>
    let overflow := to_u32 (to_u64 (top <<< rbits) >>> 32)
    let dvec := if overflow ≠ 0 then com_vec_push dvec overflow else dvec
    loopDown (fun i dest_arr =>
        rd a dest_arr i >>= fun x => shl32 x rbits >>= fun hi =>
        rd a dest_arr (i - 1) >>= fun y => shr32 y (32 - rbits) >>= fun lo =>
        wr dest_arr (i + words) (hi ||| lo))
      (alen - 1) dvec >>= fun dest_arr =>
    rdl dest_arr 0 >>= fun w => shl32 w rbits >>= fun w0 =>
    wr dest_arr 0 w0 >>= fun dest_arr =>
    com_mem_zero_arr_m dest_arr words

/-- The function `com_biguint_rshift`. -/
def com_biguint_rshift (fresh : Nat → Nat) (d : List Nat) (a : Operand) (bits : Nat) :
    Run (List Nat) :=
  let alen := (a.view d).length
  let dvec := com_vec_set_len fresh d alen
  let words := bits / 32
  let rbits := bits % 32
  if words > alen then
    com_biguint_set_u64 fresh dvec 0
  else
    loopUp (fun i dest_arr =>
        rd a dest_arr i >>= fun x => shr32 x rbits >>= fun lo =>
        rd a dest_arr (i + 1) >>= fun y => shl32 y (32 - rbits) >>= fun hi =>
        wr dest_arr (i - words) (lo ||| hi))
      (usize_sub alen 1 - words) words dvec >>= fun dest_arr =>
    rd a dest_arr (usize_sub alen 1) >>= fun top => shr32 top rbits >>= fun last =>
    if last ≠ 0 then
      wr dest_arr (usize_sub (usize_sub alen words) 1) last >>= fun dest_arr =>
      pure (com_vec_set_len fresh dest_arr (usize_sub alen words))
    else
      pure (com_vec_set_len fresh dest_arr (usize_sub (usize_sub alen words) 1))

/-! ## Addition, comparison, subtraction -/

/-- The function `internal_value_add_u32_arr`.  In the first loop the sum is taken in 64
bits; in the second `aval + carry` adds a `u32` and a promoted `u8`, so it is taken in 32
bits before it is widened. -/
def internal_value_add_u32_arr (fresh : Nat → Nat) (d : List Nat) (a : Operand) (alen : Nat)
    (b : Operand) (blen : Nat) : Run (List Nat) :=
  com_assert_m (decide (alen ≥ blen)) >>= fun _ =>
  let dest_len := alen
  loopUp (fun i (s : List Nat × Nat) =>
      rd a s.1 i >>= fun aval => rd b s.1 i >>= fun bval =>
      let tmp := to_u64 (aval + bval + s.2)
      if tmp > u32_max_m then
        wr s.1 i (to_u32 (tmp - u32_max_m)) >>= fun dest_arr => pure (dest_arr, 1)
      else
        wr s.1 i (to_u32 tmp) >>= fun dest_arr => pure (dest_arr, 0))
    blen 0 (com_vec_set_len fresh d dest_len, 0) >>= fun s =>
  loopUp (fun i (s : List Nat × Nat) =>
      rd a s.1 i >>= fun aval =>
      let tmp := to_u32 (aval + s.2)
      if tmp > u32_max_m then
        wr s.1 i (to_u32 (tmp - u32_max_m)) >>= fun dest_arr => pure (dest_arr, 1)
      else
        wr s.1 i (to_u32 tmp) >>= fun dest_arr => pure (dest_arr, 0))
    (alen - blen) blen s >>= fun s =>
  if s.2 ≠ 0 then pure (com_vec_push s.1 s.2) else pure s.1

/-- The loop of `internal_value_cmp_u32_arr`:
`for (usize i = len; i != 0; i--)` comparing `a[i - 1]` with `b[i - 1]`. -/
def cmp_loop (a b : List Nat) : Nat → Run com_math_cmptype
  | 0 => pure com_math_EQUAL
  | i + 1 =>
    rdl a i >>= fun aval => rdl b i >>= fun bval =>
    if aval < bval then pure com_math_GREATER
    else if aval > bval then pure com_math_LESS
    else cmp_loop a b i

/-- The function `internal_value_cmp_u32_arr`. -/
def internal_value_cmp_u32_arr (a : List Nat) (alen : Nat) (b : List Nat) (blen : Nat) :
    Run com_math_cmptype :=
  if blen > alen then pure com_math_GREATER
  else if blen < alen then pure com_math_LESS
  else cmp_loop a b alen

/-- The function `com_biguint_cmp`. -/
def com_biguint_cmp (a b : List Nat) : Run com_math_cmptype :=
  internal_value_cmp_u32_arr a a.length b b.length

/-- The function `com_biguint_cmp_u64`. -/
def com_biguint_cmp_u64 (a : List Nat) (b : Nat) : Run com_math_cmptype :=
  if com_biguint_fits_u64 a then
    com_biguint_get_u64 a >>= fun aval =>
    if b = aval then pure com_math_EQUAL
    else if b < aval then pure com_math_LESS
    else pure com_math_GREATER
  else pure com_math_LESS

/-- The function `internal_value_sub_u32_arr`.  Every operand of
`u32_max_m + aval - bval - borrow` is a 32-bit unsigned value or a promoted `u8`, so the
expression is taken in 32 bits before it is widened. -/
def internal_value_sub_u32_arr (fresh : Nat → Nat) (d : List Nat) (a : Operand) (alen : Nat)
    (b : Operand) (blen : Nat) : Run (List Nat) :=
  com_assert_m (decide (alen ≥ blen)) >>= fun _ =>
  internal_value_cmp_u32_arr (a.view d) alen (b.view d) blen >>= fun c =>
  com_assert_m (decide (c ≠ com_math_LESS)) >>= fun _ =>
  loopUp (fun i (s : List Nat × Nat) =>
      rd a s.1 i >>= fun aval => rd b s.1 i >>= fun bval =>
      let tmp := to_u32 (u32_max_m + aval + 2 * 2 ^ 32 - bval - s.2)
      if tmp > u32_max_m then
        wr s.1 i (to_u32 (tmp - u32_max_m)) >>= fun dest_arr => pure (dest_arr, 0)
      else
        wr s.1 i (to_u32 tmp) >>= fun dest_arr => pure (dest_arr, 1))
    blen 0 (com_vec_set_len fresh d alen, 0) >>= fun s =>
  loopUp (fun i (s : List Nat × Nat) =>
      rd a s.1 i >>= fun aval =>
      let tmp := to_u32 (u32_max_m + aval + 2 ^ 32 - s.2)
      if tmp > u32_max_m then
        wr s.1 i (to_u32 (tmp - u32_max_m)) >>= fun dest_arr => pure (dest_arr, 0)
      else
        wr s.1 i (to_u32 tmp) >>= fun dest_arr => pure (dest_arr, 1))
    (alen - blen) blen s >>= fun s =>
  com_assert_m (decide (s.2 = 0)) >>= fun _ =>
  trim_zeros fresh s.1 alen

/-- The function `com_biguint_add_u32`. -/
def com_biguint_add_u32 (fresh : Nat → Nat) (d : List Nat) (a : Operand) (b : Nat) :
    Run (List Nat) :=
  if b = 0 then pure d
  else
    let a_len := (a.view d).length
    if a_len = 0 then com_biguint_set_u64 fresh d b
    else internal_value_add_u32_arr fresh d a a_len (Operand.other [b]) 1

/-- The function `com_biguint_sub_u32`. -/
def com_biguint_sub_u32 (fresh : Nat → Nat) (d : List Nat) (a : Operand) (b : Nat) :
    Run (List Nat) :=
  if b = 0 then pure d
  else
    let a_len := (a.view d).length
    if a_len = 0 then
      com_assert_m (decide (b = 0)) >>= fun _ => pure d
    else internal_value_sub_u32_arr fresh d a a_len (Operand.other [b]) 1

/-- The function `com_biguint_add`. -/
def com_biguint_add (fresh : Nat → Nat) (d : List Nat) (a b : Operand) : Run (List Nat) :=
  let alen := (a.view d).length
  let blen := (b.view d).length
  if alen ≥ blen then internal_value_add_u32_arr fresh d a alen b blen
  else internal_value_add_u32_arr fresh d b blen a alen

/-- The function `com_biguint_sub`. -/
def com_biguint_sub (fresh : Nat → Nat) (d : List Nat) (a b : Operand) : Run (List Nat) :=
  com_biguint_cmp (a.view d) (b.view d) >>= fun c =>
  com_assert_m (decide (c ≠ com_math_GREATER)) >>= fun _ =>
  let alen := (a.view d).length
  let blen := (b.view d).length
  internal_value_add_u32_arr fresh d a alen b blen

/-! ## Multiplication -/

/-- The function `internal_value_mul_u32_arr_u32`. -/
def internal_value_mul_u32_arr_u32 (fresh : Nat → Nat) (d : List Nat) (a : Operand)
    (alen : Nat) (b : Nat) : Run (List Nat) :=
  loopUp (fun i (s : List Nat × Nat) =>
      rd a s.1 i >>= fun aval =>
      let tmp := to_u64 (aval * b + s.2)
      let carry := to_u32 (tmp >>> 32)
      wr s.1 i (to_u32 (tmp &&& 0x00000000FFFFFFFF)) >>= fun dest_arr => pure (dest_arr, carry))
    alen 0 (com_vec_set_len fresh d alen, 0) >>= fun s =>
  if s.2 ≠ 0 then pure (com_vec_push s.1 s.2) else pure s.1

/-- The function `com_biguint_mul_u32`. -/
def com_biguint_mul_u32 (fresh : Nat → Nat) (d : List Nat) (a : Operand) (b : Nat) :
    Run (List Nat) :=
  internal_value_mul_u32_arr_u32 fresh d a (a.view d).length b

/-- The function `internal_value_mul_u32_arr`; the state of its loop is the pair of `dest`
and the scratch value `tmp`.  The operands `a` and `b` are pointers as seen from `dest`;
seen from `tmp` they are separate storage. -/
def internal_value_mul_u32_arr (fresh : Nat → Nat) (d : List Nat) (a : Operand) (alen : Nat)
    (b : Operand) (blen : Nat) (tmp : List Nat) : Run (List Nat × List Nat) :=
  com_biguint_set_u64 fresh d 0 >>= fun dest =>
  loopUp (fun i (s : List Nat × List Nat) =>
      rd b s.1 i >>= fun bi =>
      internal_value_mul_u32_arr_u32 fresh s.2 (Operand.other (a.view s.1)) alen bi >>= fun tmp =>
      let tmp := com_vec_insert_zeros tmp i
      com_biguint_add fresh s.1 Operand.dest (Operand.other tmp) >>= fun dest =>
      pure (dest, tmp))
    blen 0 (dest, tmp)

/-- The function `com_biguint_mul`; `com_biguint_create` gives the empty vector. -/
def com_biguint_mul (fresh : Nat → Nat) (d : List Nat) (a b : Operand) : Run (List Nat) :=
  let alen := (a.view d).length
  let blen := (b.view d).length
  let tmp : List Nat := []
  if b = Operand.dest ∨ a = Operand.dest then
    let newdest : List Nat := []
    internal_value_mul_u32_arr fresh newdest (Operand.other (a.view d)) alen
      (Operand.other (b.view d)) blen tmp >>= fun s =>
    com_biguint_set fresh d (Operand.other s.1)
  else
    internal_value_mul_u32_arr fresh d a alen b blen tmp >>= fun s => pure s.1

/-! ## Division -/

/-- The first loop of `com_biguint_div`, on the pair of `current` and `denom`:
`while (com_biguint_cmp(a, &denom) != com_math_GREATER)`, both shifted left in place. -/
def div_double (fresh : Nat → Nat) (a : List Nat) :
    Nat → List Nat × List Nat → Run (List Nat × List Nat)
  | 0, _ => throw Fault.outOfFuel
  | fuel + 1, s =>
    com_biguint_cmp a s.2 >>= fun c =>
    if c ≠ com_math_GREATER then
      com_biguint_lshift fresh s.1 Operand.dest 1 >>= fun current =>
      com_biguint_lshift fresh s.2 Operand.dest 1 >>= fun denom =>
      div_double fresh a fuel (current, denom)
    else pure s

/-- The state of the second loop of `com_biguint_div`. -/
structure DivState where
  dest : List Nat
  current : List Nat
  denom : List Nat
  tmp : List Nat
  deriving DecidableEq, Repr

/-- The second loop of `com_biguint_div`: `while (!com_biguint_is_zero(&current))`. -/
def div_main (fresh : Nat → Nat) : Nat → DivState → Run DivState
  | 0, _ => throw Fault.outOfFuel
  | fuel + 1, s =>
    if !com_biguint_is_zero s.current then
      com_biguint_cmp s.denom s.tmp >>= fun c =>
      (if c ≠ com_math_LESS then
        com_biguint_sub fresh s.tmp Operand.dest (Operand.other s.denom) >>= fun tmp =>
        com_biguint_or fresh s.dest (Operand.other s.current) Operand.dest >>= fun dest =>
        pure (dest, tmp)
      else pure (s.dest, s.tmp)) >>= fun dt =>
      com_biguint_rshift fresh s.current Operand.dest 1 >>= fun current =>
      com_biguint_rshift fresh s.denom Operand.dest 1 >>= fun denom =>
      div_main fresh fuel { dest := dt.1, current := current, denom := denom, tmp := dt.2 }
    else pure s

/-- The function `com_biguint_div`; each of its two loops may run `fuel` times. -/
def com_biguint_div (fresh : Nat → Nat) (fuel : Nat) (d : List Nat) (a b : Operand) :
    Run (List Nat) :=
  com_assert_m (!com_biguint_is_zero (b.view d)) >>= fun _ =>
  com_biguint_set_u64 fresh [] 1 >>= fun current =>
  com_biguint_set fresh [] (Operand.other (b.view d)) >>= fun denom =>
  com_biguint_set fresh [] (Operand.other (a.view d)) >>= fun tmp =>
  div_double fresh (a.view d) fuel (current, denom) >>= fun s =>
  com_biguint_rshift fresh s.1 Operand.dest 1 >>= fun current =>
  com_biguint_rshift fresh s.2 Operand.dest 1 >>= fun denom =>
  com_biguint_set_u64 fresh d 0 >>= fun dest =>
  div_main fresh fuel { dest := dest, current := current, denom := denom, tmp := tmp }
    >>= fun s => pure s.dest

/-- The function `com_biguint_div_rem`, for operands `a` and `b` that are neither `quotient`
nor `remainder`; it returns the pair of quotient and remainder. -/
def com_biguint_div_rem (fresh : Nat → Nat) (fuel : Nat) (quotient remainder a b : List Nat) :
    Run (List Nat × List Nat) :=
  com_assert_m (!com_biguint_is_zero b) >>= fun _ =>
  com_biguint_div fresh fuel quotient (Operand.other a) (Operand.other b) >>= fun q =>
  com_biguint_sub fresh remainder (Operand.other a) (Operand.other q) >>= fun r =>
  pure (q, r)

/-- The function `com_biguint_rem`, for operands that are not `dest`. -/
def com_biguint_rem (fresh : Nat → Nat) (fuel : Nat) (d a b : List Nat) : Run (List Nat) :=
  com_assert_m (!com_biguint_is_zero b) >>= fun _ =>
  com_biguint_div_rem fresh fuel [] d a b >>= fun qr => pure qr.2

/-- A fixed choice for the undefined words of a grown vector. -/
def noFresh : Nat → Nat := fun _ => 0

/-! ## Word-level descriptions used by the proofs -/

/-- The words a loop writes when it reads the elements `xs` in order, each step turning the
element read and the carried state into a word and the next state. -/
def scanOut {ε σ : Type} (step : ε → σ → Nat × σ) : List ε → σ → List Nat
  | [], _ => []
  | x :: xs, c => (step x c).1 :: scanOut step xs (step x c).2

/-- The state such a loop carries out of its last step. -/
def scanEnd {ε σ : Type} (step : ε → σ → Nat × σ) : List ε → σ → σ
  | [], c => c
  | x :: xs, c => scanEnd step xs (step x c).2

/-- The single-word product as the spec words it: each word is the low 32 bits of
`a[i] * b + carry`, the carry is the high half, and a nonzero final carry is appended as an
extra word. -/
def mul_words (b : Nat) : List Nat → Nat → List Nat
  | [], carry => if carry ≠ 0 then [carry] else []
  | w :: ws, carry => (w * b + carry) % 2 ^ 32 :: mul_words b ws ((w * b + carry) / 2 ^ 32)

/-! ## The allocator port (`com_allocator.c`) -/

/-- Modelled from the spec: the type `com_allocator_HandleData` of `com_allocator.h` (not under
src/), the "requestedLength" and "flags" of an allocation request; a flag set is a bit mask. -/
structure com_allocator_HandleData where
  len : Nat
  flags : Nat
  deriving DecidableEq, Repr

/-- Modelled from the spec: the type `com_allocator` of `com_allocator.h` (not under src/), with
the fields `com_allocator.c` reads: the capabilities the allocator supports, those it
"mandates by default", and its allocation function; `H` is the type of handles. -/
structure com_allocator (H : Type) where
  _supported_flags : Nat
  _default_flags : Nat
  _allocator_fn : com_allocator_HandleData → H

/-- The function `com_allocator_defaults`. -/
def com_allocator_defaults {H : Type} (a : com_allocator H) : Nat := a._supported_flags

/-- The function `com_allocator_supports`. -/
def com_allocator_supports {H : Type} (a : com_allocator H) : Nat := a._supported_flags

/-- The function `com_allocator_alloc`.  The C code calls `a->_allocator_fn(a, data)`; the
field `_allocator_fn` of the model is that function applied to its own allocator. -/
def com_allocator_alloc {H : Type} (a : com_allocator H) (data : com_allocator_HandleData) :
    Run H :=
  com_assert_m (decide ((data.flags ||| a._supported_flags) = a._supported_flags)) >>= fun _ =>
  com_assert_m (decide ((data.flags &&& a._default_flags) = a._default_flags)) >>= fun _ =>
  pure (a._allocator_fn data)

/-- Every flag of the bit mask `x` is a flag of the bit mask `y`. -/
def flags_subset (x y : Nat) : Prop := ∀ i : Nat, x.testBit i = true → y.testBit i = true

/-! ## Word-level description of the addition helper -/

/-- One step of the first loop of `internal_value_add_u32_arr`, on the pair of words read and
the carry: the word written and the next carry. -/
def add_step_both (p : Nat × Nat) (carry : Nat) : Nat × Nat :=
  if to_u64 (p.1 + p.2 + carry) > u32_max_m then
    (to_u32 (to_u64 (p.1 + p.2 + carry) - u32_max_m), 1)
  else (to_u32 (to_u64 (p.1 + p.2 + carry)), 0)

/-- One step of the second loop of `internal_value_add_u32_arr`, on the word read and the
carry: the word written and the next carry. -/
def add_step_carry (aval : Nat) (carry : Nat) : Nat × Nat :=
  if to_u32 (aval + carry) > u32_max_m then (to_u32 (to_u32 (aval + carry) - u32_max_m), 1)
  else (to_u32 (to_u32 (aval + carry)), 0)

/-- The words `internal_value_add_u32_arr` leaves for the operand words `a` and the no longer
`b`: the first loop over the common words, the second over the rest of `a`, and the final
carry pushed when it is not zero. -/
def add_words (a b : List Nat) : List Nat :=
  let o1 := scanOut add_step_both (List.zip a b) 0
  let c1 := scanEnd add_step_both (List.zip a b) 0
  let o2 := scanOut add_step_carry (a.drop b.length) c1
  let c2 := scanEnd add_step_carry (a.drop b.length) c1
  if c2 ≠ 0 then com_vec_push (o1 ++ o2) c2 else o1 ++ o2

/-! ## Word-level description of the shifts by less than a word -/

/-- The word `com_biguint_lshift` writes for the operand word `x` whose next lower word is
`p`, the shift being by `r` bits. -/
def shl_word (r x p : Nat) : Nat := to_u32 (x <<< r) ||| (p >>> (32 - r))

/-- The words `com_biguint_lshift` writes for the operand words `xs`, `p` being the word below
them. -/
def shl_words (r : Nat) : Nat → List Nat → List Nat
  | _, [] => []
  | p, x :: xs => shl_word r x p :: shl_words r x xs

/-- The word `com_biguint_rshift` writes for the operand word `x` whose next higher word is
`y`, the shift being by `r` bits. -/
def shr_word (r x y : Nat) : Nat := (x >>> r) ||| to_u32 (y <<< (32 - r))

/-- The words `com_biguint_rshift` leaves for the operand words, the shift being by `r` bits
with `1 ≤ r ≤ 31`: the top word is dropped when it becomes zero. -/
def shr_words (r : Nat) : List Nat → List Nat
  | [] => []
  | [x] => if x >>> r ≠ 0 then [x >>> r] else []
  | x :: y :: rest => shr_word r x y :: shr_words r (y :: rest)

/-! ## Basic facts about reads -/

theorem rdl_of_lt (l : List Nat) (i : Nat) (h : i < l.length) : rdl l i = Except.ok l[i] := by
  unfold rdl
  rw [List.getElem?_eq_getElem h]
  rfl

theorem rdl_of_le (l : List Nat) (i : Nat) (h : l.length ≤ i) :
    rdl l i = Except.error Fault.outOfBounds := by
  unfold rdl
  rw [List.getElem?_eq_none h]
  rfl

theorem rdl_append_left (l s : List Nat) (i : Nat) (h : i < l.length) :
    rdl (l ++ s) i = rdl l i := by
  unfold rdl
  rw [List.getElem?_append_left h]

theorem rdl_concat_length (l : List Nat) (x : Nat) : rdl (l ++ [x]) l.length = Except.ok x := by
  unfold rdl
  simp
  rfl

theorem bind_ok {α β : Type} (x : α) (f : α → Run β) : (Except.ok x >>= f) = f x := rfl

theorem bind_error {α β : Type} (e : Fault) (f : α → Run β) :
    ((Except.error e : Run α) >>= f) = Except.error e := rfl

/-! ## Comparison -/

theorem cmp_loop_append (a b s t : List Nat) :
    ∀ n : Nat, n ≤ a.length → n ≤ b.length →
      cmp_loop (a ++ s) (b ++ t) n = cmp_loop a b n := by
  intro n
  induction n with
  | zero => intro _ _; rfl
  | succ n ih =>
    intro ha hb
    unfold cmp_loop
    rw [rdl_append_left a s n (by omega), rdl_append_left b t n (by omega),
      ih (by omega) (by omega)]

theorem cmp_loop_refl (x : List Nat) : ∀ n : Nat, n ≤ x.length →
    cmp_loop x x n = Except.ok com_math_EQUAL := by
  intro n
  induction n with
  | zero => intro _; rfl
  | succ n ih =>
    intro h
    unfold cmp_loop
    rw [rdl_of_lt x n (by omega)]
    simp only [bind_ok, lt_irrefl, gt_iff_lt, if_false]
    exact ih (by omega)

theorem cmp_loop_swap (a b : List Nat) : ∀ n : Nat,
    (cmp_loop a b n = Except.ok com_math_GREATER → cmp_loop b a n = Except.ok com_math_LESS) ∧
    (cmp_loop a b n = Except.ok com_math_LESS → cmp_loop b a n = Except.ok com_math_GREATER) := by
  intro n
  induction n with
  | zero => constructor <;> intro h <;> cases h
  | succ n ih =>
    unfold cmp_loop
    by_cases ha : n < a.length
    · by_cases hb : n < b.length
      · rw [rdl_of_lt a n ha, rdl_of_lt b n hb]
        simp only [bind_ok, gt_iff_lt]
        rcases Nat.lt_trichotomy (a[n]) (b[n]) with h | h | h
        · have h2 : ¬ b[n] < a[n] := by omega
          simp only [h, h2, if_true, if_false]
          constructor
          · intro _; rfl
          · intro e; cases e
        · rw [h]
          simp only [lt_irrefl, if_false]
          exact ih
        · have h2 : ¬ a[n] < b[n] := by omega
          simp only [h, h2, if_true, if_false]
          constructor
          · intro e; cases e
          · intro _; rfl
      · rw [rdl_of_lt a n ha, rdl_of_le b n (by omega)]
        constructor <;> intro e <;> cases e
    · rw [rdl_of_le a n (by omega)]
      constructor <;> intro e <;> cases e

theorem value_append_singleton (l : List Nat) (x : Nat) :
    value (l ++ [x]) = value l + 2 ^ (32 * l.length) * x := by
  induction l with
  | nil => simp [value]
  | cons w ws ih =>
    show w + 2 ^ 32 * value (ws ++ [x])
      = (w + 2 ^ 32 * value ws) + 2 ^ (32 * (ws.length + 1)) * x
    rw [ih, show 32 * (ws.length + 1) = 32 + 32 * ws.length by ring, pow_add]
    ring

theorem value_lt_pow (l : List Nat) (h : wellFormed l) : value l < 2 ^ (32 * l.length) := by
  induction l with
  | nil => simp [value]
  | cons w ws ih =>
    have hw : w < 2 ^ 32 := h w (List.mem_cons_self _ _)
    have hws : value ws < 2 ^ (32 * ws.length) := ih (fun v hv => h v (List.mem_cons_of_mem _ hv))
    simp only [value, List.length_cons]
    rw [show 32 * (ws.length + 1) = 32 + 32 * ws.length by ring, pow_add]
    have h1 : 2 ^ 32 * (value ws + 1) ≤ 2 ^ 32 * 2 ^ (32 * ws.length) :=
      Nat.mul_le_mul_left _ hws
    rw [Nat.mul_add] at h1
    omega

theorem exists_concat_of_length_succ (l : List Nat) (n : Nat) (h : l.length = n + 1) :
    ∃ l1 x, l = l1 ++ [x] ∧ l1.length = n := by
  have hne : l ≠ [] := by
    intro e
    rw [e] at h
    simp at h
  refine ⟨l.dropLast, l.getLast hne, (List.dropLast_append_getLast hne).symm, ?_⟩
  rw [List.length_dropLast, h]
  rfl

theorem wellFormed_append (l s : List Nat) :
    wellFormed (l ++ s) ↔ wellFormed l ∧ wellFormed s := by
  unfold wellFormed
  constructor
  · intro h
    exact ⟨fun w hw => h w (List.mem_append_left _ hw), fun w hw => h w (List.mem_append_right _ hw)⟩
  · rintro ⟨h1, h2⟩ w hw
    rcases List.mem_append.mp hw with h | h
    · exact h1 w h
    · exact h2 w h

/-- On sequences of one length the loop decides the order of the values. -/
theorem cmp_loop_spec : ∀ (n : Nat) (a b : List Nat), a.length = n → b.length = n →
    wellFormed a → wellFormed b →
    (cmp_loop a b n = Except.ok com_math_GREATER ∧ value a < value b) ∨
    (cmp_loop a b n = Except.ok com_math_LESS ∧ value b < value a) ∨
    (cmp_loop a b n = Except.ok com_math_EQUAL ∧ value a = value b) := by
  intro n
  induction n with
  | zero =>
    intro a b ha hb _ _
    rw [List.length_eq_zero.mp ha, List.length_eq_zero.mp hb]
    exact Or.inr (Or.inr ⟨rfl, rfl⟩)
  | succ n ih =>
    intro a b ha hb wa wb
    obtain ⟨a1, x, rfl, ha1⟩ := exists_concat_of_length_succ a n ha
    obtain ⟨b1, y, rfl, hb1⟩ := exists_concat_of_length_succ b n hb
    rw [wellFormed_append] at wa wb
    have va := value_lt_pow a1 wa.1
    have vb := value_lt_pow b1 wb.1
    rw [ha1] at va
    rw [hb1] at vb
    have hx : rdl (a1 ++ [x]) n = Except.ok x := by rw [← ha1]; exact rdl_concat_length a1 x
    have hy : rdl (b1 ++ [y]) n = Except.ok y := by rw [← hb1]; exact rdl_concat_length b1 y
    unfold cmp_loop
    rw [hx, hy, cmp_loop_append a1 b1 [x] [y] n (by omega) (by omega)]
    simp only [bind_ok, gt_iff_lt, value_append_singleton, ha1, hb1]
    rcases Nat.lt_trichotomy x y with h | h | h
    · left
      refine ⟨by rw [if_pos h]; rfl, ?_⟩
      have : 2 ^ (32 * n) * (x + 1) ≤ 2 ^ (32 * n) * y := Nat.mul_le_mul_left _ h
      rw [Nat.mul_add] at this
      omega
    · subst h
      simp only [lt_irrefl, if_false]
      rcases ih a1 b1 ha1 hb1 wa.1 wb.1 with h | h | h
      · exact Or.inl ⟨h.1, by omega⟩
      · exact Or.inr (Or.inl ⟨h.1, by omega⟩)
      · exact Or.inr (Or.inr ⟨h.1, by omega⟩)
    · right; left
      have h2 : ¬ x < y := by omega
      refine ⟨by rw [if_neg h2, if_pos h]; rfl, ?_⟩
      have : 2 ^ (32 * n) * (y + 1) ≤ 2 ^ (32 * n) * x := Nat.mul_le_mul_left _ h
      rw [Nat.mul_add] at this
      omega

theorem pow_le_value (l : List Nat) (hn : normalized l) (hl : l ≠ []) :
    2 ^ (32 * (l.length - 1)) ≤ value l := by
  obtain ⟨l1, x, rfl, h1⟩ := exists_concat_of_length_succ l (l.length - 1) (by
    have : 0 < l.length := List.length_pos.mpr hl
    omega)
  have hx : x ≠ 0 := by
    intro e
    apply hn
    rw [e]
    simp
  rw [value_append_singleton]
  simp only [List.length_append, List.length_singleton, Nat.add_sub_cancel]
  have : 2 ^ (32 * l1.length) * 1 ≤ 2 ^ (32 * l1.length) * x :=
    Nat.mul_le_mul_left _ (Nat.pos_of_ne_zero hx)
  omega

/-- A longer normalized sequence has the greater value. -/
theorem value_lt_of_length_lt (a b : List Nat) (wa : wellFormed a) (nb : normalized b)
    (h : a.length < b.length) : value a < value b := by
  have hb : b ≠ [] := by
    intro e
    rw [e] at h
    simp at h
  have h1 := value_lt_pow a wa
  have h2 := pow_le_value b nb hb
  have h3 : 2 ^ (32 * a.length) ≤ 2 ^ (32 * (b.length - 1)) :=
    Nat.pow_le_pow_right (by norm_num) (by omega)
  omega

/-- The comparison of two normalized values, as a trichotomy. -/
theorem com_biguint_cmp_cases (a b : List Nat) (wa : wellFormed a) (wb : wellFormed b)
    (na : normalized a) (nb : normalized b) :
    (com_biguint_cmp a b = Except.ok com_math_GREATER ∧ value a < value b) ∨
    (com_biguint_cmp a b = Except.ok com_math_LESS ∧ value b < value a) ∨
    (com_biguint_cmp a b = Except.ok com_math_EQUAL ∧ value a = value b) := by
  unfold com_biguint_cmp internal_value_cmp_u32_arr
  rcases Nat.lt_trichotomy a.length b.length with h | h | h
  · left
    exact ⟨by simp [h]; rfl, value_lt_of_length_lt a b wa nb h⟩
  · have h1 : ¬ b.length > a.length := by omega
    have h2 : ¬ b.length < a.length := by omega
    simp only [h1, h2, if_false]
    exact cmp_loop_spec a.length a b rfl h.symm wa wb
  · right; left
    have h1 : ¬ b.length > a.length := by omega
    exact ⟨by simp [h1, h]; rfl, value_lt_of_length_lt b a wb na h⟩

theorem com_vec_set_len_zero (fresh : Nat → Nat) (d : List Nat) :
    com_vec_set_len fresh d 0 = [] := rfl

theorem com_vec_set_len_one (fresh : Nat → Nat) (d : List Nat) :
    com_vec_set_len fresh d 1 = [d.getD 0 (fresh 0)] := rfl

theorem com_vec_set_len_two (fresh : Nat → Nat) (d : List Nat) :
    com_vec_set_len fresh d 2 = [d.getD 0 (fresh 0), d.getD 1 (fresh 1)] := rfl

theorem com_biguint_set_u64_eq (fresh : Nat → Nat) (d : List Nat) (v : Nat) (hv : v < 2 ^ 64) :
    com_biguint_set_u64 fresh d v =
      Except.ok (if v = 0 then [] else if v < 2 ^ 32 then [v] else [v % 2 ^ 32, v / 2 ^ 32]) := by
  unfold com_biguint_set_u64
  have hmask : v &&& 0x00000000FFFFFFFF = v % 2 ^ 32 :=
    Nat.and_pow_two_sub_one_eq_mod v 32
  by_cases h0 : v = 0
  · rw [if_pos h0, if_pos h0]
    rfl
  · rw [if_neg h0, if_neg h0]
    by_cases h1 : v ≤ u32_max_m
    · have h1' : v < 2 ^ 32 := by unfold u32_max_m at h1; omega
      rw [if_pos h1, if_pos h1', hmask, com_vec_set_len_one]
      unfold wr to_u32
      simp only [List.length_singleton, Nat.lt_one_iff, if_true, List.set_cons_zero,
        Nat.mod_mod]
      rw [Nat.mod_eq_of_lt h1']
      rfl
    · have h1' : ¬ v < 2 ^ 32 := by unfold u32_max_m at h1; omega
      rw [if_neg h1, if_neg h1', hmask, com_vec_set_len_two, Nat.shiftRight_eq_div_pow]
      have h2 : v / 2 ^ 32 < 2 ^ 32 := by omega
      unfold wr to_u32
      simp only [List.length_cons, List.length_singleton, List.length_nil, Nat.zero_lt_succ,
        if_true, List.set_cons_zero, Nat.mod_mod, bind_ok]
      rw [Nat.mod_eq_of_lt h2]
      rfl

/-! ## The claims -/

/-- C1 (fails on the code): `com_biguint_add` of a = [4294967295] and b = [1] leaves the words
[1, 1], of value 4294967297, and not the words [0, 1] of the sum 4294967296, whatever the
destination held before: on overflow the word stored is `tmp - u32_max_m`, one too many. -/
theorem com_biguint_add_max_plus_one :
    (∀ (fresh : Nat → Nat) (d : List Nat),
      com_biguint_add fresh d (Operand.other [4294967295]) (Operand.other [1])
        = Except.ok [1, 1]) ∧
    value [1, 1] ≠ value [4294967295] + value [1] ∧
    value [0, 1] = value [4294967295] + value [1] := by
  refine ⟨?_, by decide, by decide⟩
  intro fresh d
  simp [com_biguint_add, internal_value_add_u32_arr, com_assert_m, com_vec_set_len, loopUp, rd,
    rdl, Operand.view, wr, to_u64, to_u32, com_vec_push, List.range_succ, u32_max_m]
  rfl

/-- C2 (fails on the code): `com_biguint_sub` of a = [5] and b = [3] leaves the words [8], the
sum, and not the difference [2], whatever the destination held before: it calls
`internal_value_add_u32_arr`. -/
theorem com_biguint_sub_five_three :
    (∀ (fresh : Nat → Nat) (d : List Nat),
      com_biguint_sub fresh d (Operand.other [5]) (Operand.other [3]) = Except.ok [8]) ∧
    value [8] ≠ value [5] - value [3] := by
  refine ⟨?_, by decide⟩
  intro fresh d
  simp [com_biguint_sub, com_biguint_cmp, internal_value_cmp_u32_arr, cmp_loop,
    internal_value_add_u32_arr, com_assert_m, com_vec_set_len, loopUp, rd, rdl, Operand.view,
    wr, to_u64, to_u32, com_vec_push, List.range_succ, u32_max_m]
  rfl

/-- C3 (fails on the code): `com_biguint_div_rem` of a = [100] and b = [7] returns the
quotient [15] and the remainder [115], not 14 and 2; the division identity and the bound on
the remainder both fail. -/
theorem com_biguint_div_rem_hundred_seven :
    com_biguint_div_rem noFresh 6 [] [] [100] [7] = Except.ok ([15], [115]) ∧
    value [15] * value [7] + value [115] ≠ value [100] ∧
    ¬ value [115] < value [7] := by
  decide

/-- C4 (fails on the code): `com_biguint_div` of a = [100] and b = [7] sets the destination to
[15], not to the words [14] of floor(100 / 7). -/
theorem com_biguint_div_hundred_seven :
    com_biguint_div noFresh 6 [] (Operand.other [100]) (Operand.other [7]) = Except.ok [15] ∧
    value [15] ≠ value [100] / value [7] := by
  decide

/-- C5 (fails on the code): `com_biguint_mul` of a = [4294967295] and b = [2, 1] sets the
destination to [4294967294, 1, 1], whose value is not the product; the product is the value
of [4294967294, 0, 1]. -/
theorem com_biguint_mul_carry :
    com_biguint_mul noFresh [] (Operand.other [4294967295]) (Operand.other [2, 1])
      = Except.ok [4294967294, 1, 1] ∧
    value [4294967294, 1, 1] ≠ value [4294967295] * value [2, 1] ∧
    value [4294967294, 0, 1] = value [4294967295] * value [2, 1] := by
  decide

/-- C6 (fails on the code): the invariant I1 is not preserved by `com_biguint_mul_u32`, which
for a = [1] and the word 0 leaves the single zero word [0], nor by `com_biguint_add`, which for
the normalized a = [4294967295, 4294967295] and b = [1] leaves [1, 0]. -/
theorem normalized_not_preserved :
    (∀ (fresh : Nat → Nat) (d : List Nat),
      com_biguint_mul_u32 fresh d (Operand.other [1]) 0 = Except.ok [0]) ∧
    normalized [1] ∧ ¬ normalized [0] ∧
    (∀ (fresh : Nat → Nat) (d : List Nat),
      com_biguint_add fresh d (Operand.other [4294967295, 4294967295]) (Operand.other [1])
        = Except.ok [1, 0]) ∧
    normalized [4294967295, 4294967295] ∧ ¬ normalized [1, 0] := by
  refine ⟨?_, by decide, by decide, ?_, by decide, by decide⟩
  · intro fresh d
    simp [com_biguint_mul_u32, internal_value_mul_u32_arr_u32, com_vec_set_len, loopUp, rd, rdl,
      Operand.view, wr, to_u64, to_u32, com_vec_push, List.range_succ]
    rfl
  · intro fresh d
    simp [com_biguint_add, internal_value_add_u32_arr, com_assert_m, com_vec_set_len, loopUp,
      rd, rdl, Operand.view, wr, to_u64, to_u32, com_vec_push, List.range_succ, u32_max_m]
    rfl

/-- C7: for normalized a and b, `com_biguint_cmp a b` reports b relative to a: it returns
GREATER exactly when value b > value a, LESS exactly when value b < value a and EQUAL exactly
when the values are equal; a = 0 (the empty sequence) and b = 5 give GREATER. -/
theorem com_biguint_cmp_relative (a b : List Nat) (wa : wellFormed a) (wb : wellFormed b)
    (na : normalized a) (nb : normalized b) :
    (com_biguint_cmp a b = Except.ok com_math_GREATER ↔ value b > value a) ∧
    (com_biguint_cmp a b = Except.ok com_math_LESS ↔ value b < value a) ∧
    (com_biguint_cmp a b = Except.ok com_math_EQUAL ↔ value b = value a) ∧
    com_biguint_cmp [] [5] = Except.ok com_math_GREATER := by
  refine ⟨?_, ?_, ?_, by decide⟩
  all_goals
    rcases com_biguint_cmp_cases a b wa wb na nb with h | h | h
    all_goals
      rw [h.1]
      constructor
      · intro e
        first
          | omega
          | (injection e with e1; cases e1)
      · intro e
        first
          | rfl
          | omega

/-- C7, at a = [7, 1] and b = [9]. -/
theorem com_biguint_cmp_relative_witness :
    (wellFormed [7, 1] ∧ wellFormed [9] ∧ normalized [7, 1] ∧ normalized [9]) ∧
    ((com_biguint_cmp [7, 1] [9] = Except.ok com_math_GREATER ↔ value [9] > value [7, 1]) ∧
     (com_biguint_cmp [7, 1] [9] = Except.ok com_math_LESS ↔ value [9] < value [7, 1]) ∧
     (com_biguint_cmp [7, 1] [9] = Except.ok com_math_EQUAL ↔ value [9] = value [7, 1]) ∧
     com_biguint_cmp [] [5] = Except.ok com_math_GREATER) :=
  ⟨by decide,
   com_biguint_cmp_relative [7, 1] [9] (by decide) (by decide) (by decide) (by decide)⟩

/-- C8: for every word sequence x, `com_biguint_cmp x x` returns EQUAL. -/
theorem com_biguint_cmp_self (x : List Nat) :
    com_biguint_cmp x x = Except.ok com_math_EQUAL := by
  unfold com_biguint_cmp internal_value_cmp_u32_arr
  simp only [gt_iff_lt, lt_irrefl, if_false]
  exact cmp_loop_refl x x.length (le_refl _)

/-- C9: for all word sequences a and b, if `com_biguint_cmp a b` returns GREATER then
`com_biguint_cmp b a` returns LESS, and if it returns LESS then `com_biguint_cmp b a` returns
GREATER. -/
theorem com_biguint_cmp_antisymm (a b : List Nat) :
    (com_biguint_cmp a b = Except.ok com_math_GREATER →
      com_biguint_cmp b a = Except.ok com_math_LESS) ∧
    (com_biguint_cmp a b = Except.ok com_math_LESS →
      com_biguint_cmp b a = Except.ok com_math_GREATER) := by
  unfold com_biguint_cmp internal_value_cmp_u32_arr
  rcases Nat.lt_trichotomy a.length b.length with h | h | h
  · have h1 : ¬ a.length > b.length := by omega
    simp only [gt_iff_lt, h, h1, if_true, if_false]
    exact ⟨fun _ => rfl, fun e => (by cases e)⟩
  · have h1 : ¬ b.length < a.length := by omega
    have h2 : ¬ a.length < b.length := by omega
    simp only [gt_iff_lt, h1, h2, if_false]
    rw [← h]
    exact cmp_loop_swap a b a.length
  · have h1 : ¬ a.length < b.length := by omega
    simp only [gt_iff_lt, h, h1, if_true, if_false]
    exact ⟨fun e => (by cases e), fun _ => rfl⟩

/-- C9, at a = [3, 1] and b = [4, 1], and with the two exchanged. -/
theorem com_biguint_cmp_antisymm_witness :
    (com_biguint_cmp [3, 1] [4, 1] = Except.ok com_math_GREATER ∧
      com_biguint_cmp [4, 1] [3, 1] = Except.ok com_math_LESS) ∧
    (com_biguint_cmp [4, 1] [3, 1] = Except.ok com_math_LESS ∧
      com_biguint_cmp [3, 1] [4, 1] = Except.ok com_math_GREATER) :=
  ⟨⟨by decide, (com_biguint_cmp_antisymm [3, 1] [4, 1]).1 (by decide)⟩,
   ⟨by decide, (com_biguint_cmp_antisymm [4, 1] [3, 1]).2 (by decide)⟩⟩

/-- C10: for every unsigned 64-bit value v, `com_biguint_get_u64` applied to the result of
`com_biguint_set_u64` with v returns v, whatever the destination held before. -/
theorem com_biguint_get_u64_set_u64 (fresh : Nat → Nat) (d : List Nat) (v : Nat)
    (hv : v < 2 ^ 64) :
    (com_biguint_set_u64 fresh d v >>= com_biguint_get_u64) = Except.ok v := by
  rw [com_biguint_set_u64_eq fresh d v hv, bind_ok]
  by_cases h0 : v = 0
  · rw [if_pos h0, h0]
    rfl
  · rw [if_neg h0]
    by_cases h1 : v < 2 ^ 32
    · rw [if_pos h1]
      rfl
    · rw [if_neg h1]
      show Except.ok (to_u64 (to_u64 ((v / 2 ^ 32) <<< 32) + v % 2 ^ 32)) = Except.ok v
      unfold to_u64
      rw [Nat.shiftLeft_eq]
      congr 1
      omega

/-- C10, at the boundary values 0, 2^32 - 1, 2^32 and 2^64 - 1. -/
theorem com_biguint_get_u64_set_u64_witness :
    (0 < 2 ^ 64 ∧ 4294967295 < 2 ^ 64 ∧ 4294967296 < 2 ^ 64 ∧ 18446744073709551615 < 2 ^ 64) ∧
    (com_biguint_set_u64 noFresh [7, 7, 7] 0 >>= com_biguint_get_u64) = Except.ok 0 ∧
    (com_biguint_set_u64 noFresh [7, 7, 7] 4294967295 >>= com_biguint_get_u64)
      = Except.ok 4294967295 ∧
    (com_biguint_set_u64 noFresh [7, 7, 7] 4294967296 >>= com_biguint_get_u64)
      = Except.ok 4294967296 ∧
    (com_biguint_set_u64 noFresh [7, 7, 7] 18446744073709551615 >>= com_biguint_get_u64)
      = Except.ok 18446744073709551615 :=
  ⟨by decide,
   com_biguint_get_u64_set_u64 noFresh [7, 7, 7] 0 (by decide),
   com_biguint_get_u64_set_u64 noFresh [7, 7, 7] 4294967295 (by decide),
   com_biguint_get_u64_set_u64 noFresh [7, 7, 7] 4294967296 (by decide),
   com_biguint_get_u64_set_u64 noFresh [7, 7, 7] 18446744073709551615 (by decide)⟩

/-! ## Loops that fill a vector -/

theorem wr_of_lt (d : List Nat) (i w : Nat) (h : i < d.length) : wr d i w = Except.ok (d.set i w) := by
  unfold wr
  rw [if_pos h]
  rfl

theorem rd_other (a d : List Nat) (i : Nat) : rd (Operand.other a) d i = rdl a i := rfl

theorem set_take_drop (d : List Nat) (lo w : Nat) (out : List Nat) (n : Nat)
    (h : lo + (n + 1) ≤ d.length) :
    (d.set lo w).take (lo + 1) ++ out ++ (d.set lo w).drop (lo + 1 + n)
      = d.take lo ++ w :: out ++ d.drop (lo + (n + 1)) := by
  have h1 : (d.set lo w).take (lo + 1) = d.take lo ++ [w] := by
    rw [List.take_succ, List.set_take, List.set_eq_of_length_le (by simp)]
    simp [List.getElem?_set, show lo < d.length by omega]
  have h2 : (d.set lo w).drop (lo + 1 + n) = d.drop (lo + (n + 1)) := by
    rw [List.drop_set_of_lt _ _ (by omega)]
    congr 1
    omega
  rw [h1, h2]
  simp

/-- A loop whose step writes at index `lo + k` a word computed from the `k`-th element of
`xs` and the carried state writes the scan of `xs` over the words `lo ..`. -/
theorem loopUp_scan {ε σ : Type} (step : ε → σ → Nat × σ)
    (body : Nat → List Nat × σ → Run (List Nat × σ)) :
    ∀ (xs : List ε) (lo : Nat) (d : List Nat) (c : σ),
      lo + xs.length ≤ d.length →
      (∀ (k : Nat) (hk : k < xs.length) (e : List Nat) (s : σ),
        body (lo + k) (e, s)
          = wr e (lo + k) (step xs[k] s).1 >>= fun r => pure (r, (step xs[k] s).2)) →
      loopUp body xs.length lo (d, c)
        = Except.ok (d.take lo ++ scanOut step xs c ++ d.drop (lo + xs.length),
            scanEnd step xs c) := by
  intro xs
  induction xs with
  | nil =>
    intro lo d c _ _
    simp [loopUp, scanOut, scanEnd]
    rfl
  | cons x xs ih =>
    intro lo d c hlen hbody
    simp only [List.length_cons] at hlen
    have h0 := hbody 0 (by simp) d c
    simp only [Nat.add_zero, List.getElem_cons_zero] at h0
    simp only [List.length_cons, loopUp]
    rw [h0, wr_of_lt d lo _ (by omega)]
    simp only [bind_ok]
    show loopUp body xs.length (lo + 1) (d.set lo (step x c).1, (step x c).2) = _
    rw [ih (lo + 1) (d.set lo (step x c).1) (step x c).2 (by rw [List.length_set]; omega)
      (fun k hk e s => by
        have := hbody (k + 1) (by simp; omega) e s
        simp only [List.getElem_cons_succ] at this
        rw [show lo + 1 + k = lo + (k + 1) by omega]
        exact this)]
    simp only [scanOut, scanEnd]
    rw [set_take_drop d lo _ _ xs.length hlen]

theorem com_vec_set_len_length (fresh : Nat → Nat) (d : List Nat) (n : Nat) :
    (com_vec_set_len fresh d n).length = n := by
  simp [com_vec_set_len]

theorem com_vec_set_len_of_le (fresh : Nat → Nat) (d : List Nat) (n : Nat) (h : n ≤ d.length) :
    com_vec_set_len fresh d n = d.take n := by
  apply List.ext_getElem
  · simp [com_vec_set_len, h]
  · intro i h1 h2
    simp [com_vec_set_len] at h1 ⊢
    rw [List.getElem?_eq_getElem (by omega)]
    rfl

theorem com_vec_set_len_getElem? (fresh : Nat → Nat) (d : List Nat) (n i : Nat) (hi : i < n) :
    (com_vec_set_len fresh d n)[i]? = some (d.getD i (fresh i)) := by
  simp [com_vec_set_len, hi]

/-- Reading word `i` of an operand after the destination was resized to `n > i` words gives
the operand's word, also when the operand is the destination, as long as word `i` of the
destination has not been written since. -/
theorem rd_after_set_len (fresh : Nat → Nat) (o : Operand) (d e : List Nat) (n i : Nat)
    (hi : i < n) (hlen : i < (o.view d).length)
    (he : e[i]? = (com_vec_set_len fresh d n)[i]?) :
    rd o e i = Except.ok ((o.view d)[i]) := by
  cases o with
  | dest =>
    simp only [Operand.view] at hlen ⊢
    unfold rd rdl
    simp only [Operand.view]
    rw [he, com_vec_set_len_getElem? fresh d n i hi, List.getD_eq_getElem?_getD,
      List.getElem?_eq_getElem hlen]
    rfl
  | other ws =>
    simp only [Operand.view] at hlen ⊢
    rw [rd_other, rdl_of_lt ws i hlen]

/-- A loop whose step writes at index `lo + k` a word computed from the `k`-th element of
`xs`, and may read the word it is about to write, writes the image of `xs` over the words
`lo ..`. -/
theorem loopUp_map_inv {ε : Type} (f : ε → Nat) (body : Nat → List Nat → Run (List Nat)) :
    ∀ (xs : List ε) (lo : Nat) (d : List Nat),
      lo + xs.length ≤ d.length →
      (∀ (k : Nat) (hk : k < xs.length) (e : List Nat),
        e[lo + k]? = d[lo + k]? → e.length = d.length →
        body (lo + k) e = wr e (lo + k) (f xs[k])) →
      loopUp body xs.length lo d
        = Except.ok (d.take lo ++ xs.map f ++ d.drop (lo + xs.length)) := by
  intro xs
  induction xs with
  | nil =>
    intro lo d _ _
    simp [loopUp]
    rfl
  | cons x xs ih =>
    intro lo d hlen hbody
    simp only [List.length_cons] at hlen
    have h0 := hbody 0 (by simp) d rfl rfl
    simp only [Nat.add_zero, List.getElem_cons_zero] at h0
    simp only [List.length_cons, loopUp]
    rw [h0, wr_of_lt d lo _ (by omega)]
    simp only [bind_ok]
    rw [ih (lo + 1) (d.set lo (f x)) (by rw [List.length_set]; omega)
      (fun k hk e he hl => by
        have := hbody (k + 1) (by simp; omega) e
          (by
            rw [show lo + (k + 1) = lo + 1 + k by omega, he,
              List.getElem?_set_ne (by omega)])
          (by rw [hl, List.length_set])
        simp only [List.getElem_cons_succ] at this
        rw [show lo + 1 + k = lo + (k + 1) by omega]
        exact this)]
    simp only [List.map_cons]
    rw [set_take_drop d lo _ _ xs.length hlen]

/-- The form of `loopUp_scan` for a step that may read the word it is about to write. -/
theorem loopUp_scan_inv {ε σ : Type} (step : ε → σ → Nat × σ)
    (body : Nat → List Nat × σ → Run (List Nat × σ)) :
    ∀ (xs : List ε) (lo : Nat) (d : List Nat) (c : σ),
      lo + xs.length ≤ d.length →
      (∀ (k : Nat) (hk : k < xs.length) (e : List Nat) (s : σ),
        e[lo + k]? = d[lo + k]? → e.length = d.length →
        body (lo + k) (e, s)
          = wr e (lo + k) (step xs[k] s).1 >>= fun r => pure (r, (step xs[k] s).2)) →
      loopUp body xs.length lo (d, c)
        = Except.ok (d.take lo ++ scanOut step xs c ++ d.drop (lo + xs.length),
            scanEnd step xs c) := by
  intro xs
  induction xs with
  | nil =>
    intro lo d c _ _
    simp [loopUp, scanOut, scanEnd]
    rfl
  | cons x xs ih =>
    intro lo d c hlen hbody
    simp only [List.length_cons] at hlen
    have h0 := hbody 0 (by simp) d c rfl rfl
    simp only [Nat.add_zero, List.getElem_cons_zero] at h0
    simp only [List.length_cons, loopUp]
    rw [h0, wr_of_lt d lo _ (by omega)]
    simp only [bind_ok]
    show loopUp body xs.length (lo + 1) (d.set lo (step x c).1, (step x c).2) = _
    rw [ih (lo + 1) (d.set lo (step x c).1) (step x c).2 (by rw [List.length_set]; omega)
      (fun k hk e s he hl => by
        have := hbody (k + 1) (by simp; omega) e s
          (by
            rw [show lo + (k + 1) = lo + 1 + k by omega, he,
              List.getElem?_set_ne (by omega)])
          (by rw [hl, List.length_set])
        simp only [List.getElem_cons_succ] at this
        rw [show lo + 1 + k = lo + (k + 1) by omega]
        exact this)]
    simp only [scanOut, scanEnd]
    rw [set_take_drop d lo _ _ xs.length hlen]

/-! ## Bitwise operations on values -/

theorem and_split (x y A B : Nat) (hx : x < 2 ^ 32) (hy : y < 2 ^ 32) :
    (x + 2 ^ 32 * A) &&& (y + 2 ^ 32 * B) = (x &&& y) + 2 ^ 32 * (A &&& B) := by
  have hxy : x &&& y < 2 ^ 32 := Nat.and_lt_two_pow x hy
  apply Nat.eq_of_testBit_eq
  intro j
  rw [Nat.testBit_and, Nat.add_comm x, Nat.add_comm y, Nat.add_comm (x &&& y),
    Nat.testBit_mul_pow_two_add A hx, Nat.testBit_mul_pow_two_add B hy,
    Nat.testBit_mul_pow_two_add _ hxy]
  split <;> simp [Nat.testBit_and]

theorem or_split (x y A B : Nat) (hx : x < 2 ^ 32) (hy : y < 2 ^ 32) :
    (x + 2 ^ 32 * A) ||| (y + 2 ^ 32 * B) = (x ||| y) + 2 ^ 32 * (A ||| B) := by
  have hxy : x ||| y < 2 ^ 32 := Nat.or_lt_two_pow hx hy
  apply Nat.eq_of_testBit_eq
  intro j
  rw [Nat.testBit_or, Nat.add_comm x, Nat.add_comm y, Nat.add_comm (x ||| y),
    Nat.testBit_mul_pow_two_add A hx, Nat.testBit_mul_pow_two_add B hy,
    Nat.testBit_mul_pow_two_add _ hxy]
  split <;> simp [Nat.testBit_or]

theorem or_eq_zero_left (x y : Nat) (h : x ||| y = 0) : x = 0 := by
  apply Nat.eq_of_testBit_eq
  intro i
  have := congrArg (fun n => Nat.testBit n i) h
  simp only [Nat.testBit_or, Nat.zero_testBit, Bool.or_eq_false_iff] at this
  rw [this.1, Nat.zero_testBit]

theorem value_cons (w : Nat) (ws : List Nat) : value (w :: ws) = w + 2 ^ 32 * value ws := rfl

theorem value_nil : value [] = 0 := rfl

theorem wellFormed_cons (w : Nat) (ws : List Nat) :
    wellFormed (w :: ws) ↔ w < 2 ^ 32 ∧ wellFormed ws := by
  unfold wellFormed
  simp

theorem value_zipWith_and : ∀ (a b : List Nat), wellFormed a → wellFormed b →
    value (List.zipWith (fun x y => x &&& y) a b) = value a &&& value b := by
  intro a
  induction a with
  | nil => intro b _ _; simp [value]
  | cons x xs ih =>
    intro b wa wb
    cases b with
    | nil => simp [value]
    | cons y ys =>
      rw [wellFormed_cons] at wa wb
      simp only [List.zipWith_cons_cons, value]
      rw [ih ys wa.2 wb.2, and_split x y _ _ wa.1 wb.1]

theorem wellFormed_zipWith_and : ∀ (a b : List Nat), wellFormed b →
    wellFormed (List.zipWith (fun x y => x &&& y) a b) := by
  intro a
  induction a with
  | nil => intro b _; simp [wellFormed]
  | cons x xs ih =>
    intro b wb
    cases b with
    | nil => simp [wellFormed]
    | cons y ys =>
      rw [wellFormed_cons] at wb
      simp only [List.zipWith_cons_cons]
      rw [wellFormed_cons]
      exact ⟨Nat.and_lt_two_pow x wb.1, ih ys wb.2⟩

theorem value_zipWith_or : ∀ (a b : List Nat), wellFormed a → wellFormed b →
    b.length ≤ a.length →
    value (List.zipWith (fun x y => x ||| y) a b ++ a.drop b.length) = value a ||| value b := by
  intro a
  induction a with
  | nil =>
    intro b _ _ h
    have : b = [] := List.length_eq_zero.mp (by simpa using h)
    subst this
    simp [value]
  | cons x xs ih =>
    intro b wa wb h
    cases b with
    | nil => simp [value]
    | cons y ys =>
      rw [wellFormed_cons] at wa wb
      simp only [List.zipWith_cons_cons, List.length_cons, List.drop_succ_cons,
        List.cons_append]
      rw [value_cons, value_cons, value_cons, ih ys wa.2 wb.2 (by simpa using h),
        or_split x y _ _ wa.1 wb.1]

theorem normalized_cons (w : Nat) (ws : List Nat) :
    normalized (w :: ws) ↔ (ws = [] → w ≠ 0) ∧ normalized ws := by
  unfold normalized
  cases ws with
  | nil => simp
  | cons v vs => simp [List.getLast?_cons_cons]

theorem normalized_zipWith_or : ∀ (a b : List Nat), normalized a → b.length ≤ a.length →
    normalized (List.zipWith (fun x y => x ||| y) a b ++ a.drop b.length) := by
  intro a
  induction a with
  | nil =>
    intro b _ h
    have : b = [] := List.length_eq_zero.mp (by simpa using h)
    subst this
    simp [normalized]
  | cons x xs ih =>
    intro b na h
    cases b with
    | nil => simpa using na
    | cons y ys =>
      simp only [List.zipWith_cons_cons, List.length_cons, List.drop_succ_cons,
        List.cons_append]
      rw [normalized_cons] at na ⊢
      have hl : ys.length ≤ xs.length := by simpa using h
      refine ⟨?_, ih ys na.2 hl⟩
      intro e
      have hxs : xs = [] := by
        have hlen : (List.zipWith (fun x y => x ||| y) xs ys ++ xs.drop ys.length).length
            = xs.length := by
          simp only [List.length_append, List.length_zipWith, List.length_drop]
          omega
        rw [e] at hlen
        exact List.length_eq_zero.mp hlen.symm
      have hx := na.1 hxs
      intro h0
      exact hx (or_eq_zero_left x y h0)

/-! ## Trimming the most significant zero words -/

theorem count_zeros_spec (d : List Nat) : ∀ (n z : Nat), n ≤ d.length →
    ∃ k, count_zeros d n z = Except.ok (z + k) ∧ k ≤ n ∧
      (∀ i, n - k ≤ i → i < n → d[i]? = some 0) ∧
      (k < n → d[n - k - 1]? ≠ some 0) := by
  intro n
  induction n with
  | zero =>
    intro z _
    exact ⟨0, rfl, le_refl _, fun i _ hi => absurd hi (Nat.not_lt_zero _), fun h => absurd h (Nat.lt_irrefl _)⟩
  | succ n ih =>
    intro z h
    unfold count_zeros
    rw [rdl_of_lt d n (by omega), bind_ok]
    by_cases h0 : d[n] = 0
    · rw [if_pos h0]
      obtain ⟨k, hk1, hk2, hk3, hk4⟩ := ih (z + 1) (by omega)
      refine ⟨k + 1, by rw [hk1]; congr 1; omega, by omega, ?_, ?_⟩
      · intro i hi1 hi2
        by_cases hin : i = n
        · subst hin
          rw [List.getElem?_eq_getElem (by omega), h0]
        · exact hk3 i (by omega) (by omega)
      · intro hlt
        have := hk4 (by omega)
        rw [show n + 1 - (k + 1) - 1 = n - k - 1 by omega]
        exact this
    · rw [if_neg h0]
      refine ⟨0, rfl, Nat.zero_le _, fun i hi1 hi2 => by omega, ?_⟩
      intro _
      rw [show n + 1 - 0 - 1 = n by omega, List.getElem?_eq_getElem (by omega)]
      intro e
      exact h0 (Option.some.inj e)

theorem value_take_of_zeros : ∀ (d : List Nat) (m : Nat),
    (∀ i, m ≤ i → i < d.length → d[i]? = some 0) → value (d.take m) = value d := by
  intro d
  induction d with
  | nil => intro m _; simp
  | cons w ws ih =>
    intro m h
    cases m with
    | zero =>
      have hw : w = 0 := by
        have := h 0 (le_refl _) (by simp)
        simpa using this
      have hws := ih 0 (fun i _ hi => by
        have := h (i + 1) (by omega) (by simp; omega)
        simpa using this)
      rw [List.take_zero, value_nil] at hws ⊢
      rw [value_cons, ← hws, hw]
      rfl
    | succ m =>
      have hws := ih m (fun i hmi hi => by
        have := h (i + 1) (by omega) (by simp; omega)
        simpa using this)
      simp only [List.take_succ_cons, value, hws]

theorem normalized_take (d : List Nat) (m : Nat) (hm : m ≤ d.length)
    (h : 0 < m → d[m - 1]? ≠ some 0) : normalized (d.take m) := by
  unfold normalized
  rw [List.getLast?_eq_getElem?]
  simp only [List.length_take, Nat.min_eq_left hm]
  by_cases h0 : 0 < m
  · rw [List.getElem?_take_of_lt (by omega)]
    exact h h0
  · have : m = 0 := by omega
    subst this
    simp

theorem wellFormed_take (d : List Nat) (m : Nat) (h : wellFormed d) : wellFormed (d.take m) :=
  fun w hw => h w (List.mem_of_mem_take hw)

/-- Trimming returns a normalized prefix of the same value. -/
theorem trim_zeros_spec (fresh : Nat → Nat) (d : List Nat) :
    ∃ m, m ≤ d.length ∧ trim_zeros fresh d d.length = Except.ok (d.take m) ∧
      value (d.take m) = value d ∧ normalized (d.take m) := by
  obtain ⟨k, hk1, hk2, hk3, hk4⟩ := count_zeros_spec d d.length 0 (le_refl _)
  refine ⟨d.length - k, Nat.sub_le _ _, ?_, ?_, ?_⟩
  · unfold trim_zeros
    rw [hk1, bind_ok, Nat.zero_add, com_vec_set_len_of_le fresh d _ (Nat.sub_le _ _)]
    rfl
  · exact value_take_of_zeros d _ (fun i h1 h2 => hk3 i h1 h2)
  · apply normalized_take d _ (Nat.sub_le _ _)
    intro hpos
    exact hk4 (by omega)

/-! ## The bitwise operations, on operands that may be the destination -/

theorem com_assert_m_true : com_assert_m true = Except.ok () := rfl

theorem zipWith_take_left {α β γ : Type} (f : α → β → γ) : ∀ (a : List α) (b : List β),
    List.zipWith f (a.take b.length) b = List.zipWith f a b := by
  intro a
  induction a with
  | nil => intro b; simp
  | cons x xs ih =>
    intro b
    cases b with
    | nil => simp
    | cons y ys => simp [ih ys]

/-- The loop `dest_arr[i] = op(a[i], b[i])` over the first `n` words, the destination having
been resized to `m` words; `a` and `b` may be the destination. -/
theorem loopUp_zipWith (fresh : Nat → Nat) (op : Nat → Nat → Nat) (a b : Operand)
    (d : List Nat) (n m : Nat) (hn : n ≤ m)
    (ha : n ≤ (a.view d).length) (hb : n ≤ (b.view d).length) :
    loopUp (fun i dest_arr =>
        rd a dest_arr i >>= fun x => rd b dest_arr i >>= fun y => wr dest_arr i (op x y))
      n 0 (com_vec_set_len fresh d m)
      = Except.ok (List.zipWith op ((a.view d).take n) ((b.view d).take n)
          ++ (com_vec_set_len fresh d m).drop n) := by
  have hl : (List.zip ((a.view d).take n) ((b.view d).take n)).length = n := by
    rw [List.length_zip, List.length_take, List.length_take]
    omega
  have h := loopUp_map_inv (fun p : Nat × Nat => op p.1 p.2)
    (fun i dest_arr =>
        rd a dest_arr i >>= fun x => rd b dest_arr i >>= fun y => wr dest_arr i (op x y))
    (List.zip ((a.view d).take n) ((b.view d).take n)) 0 (com_vec_set_len fresh d m)
    (by rw [hl, com_vec_set_len_length]; omega)
    (fun k hk e he _ => by
      rw [hl] at hk
      rw [Nat.zero_add] at he
      beta_reduce
      rw [Nat.zero_add, rd_after_set_len fresh a d e m k (by omega) (by omega) he, bind_ok,
        rd_after_set_len fresh b d e m k (by omega) (by omega) he, bind_ok]
      simp only [List.getElem_zip, List.getElem_take])
  rw [hl] at h
  rw [h, List.zip_eq_zipWith, List.map_zipWith]
  simp

theorem internal_value_and_eq (fresh : Nat → Nat) (d : List Nat) (a b : Operand)
    (h : (b.view d).length ≤ (a.view d).length) :
    internal_value_and fresh d a (a.view d).length b (b.view d).length
      = trim_zeros fresh (List.zipWith (fun x y => x &&& y) (a.view d) (b.view d))
          (b.view d).length := by
  unfold internal_value_and
  have hl := loopUp_zipWith fresh (fun x y => x &&& y) a b d (b.view d).length
    (b.view d).length (le_refl _) h (le_refl _)
  beta_reduce at hl
  rw [decide_eq_true h, com_assert_m_true, bind_ok]
  dsimp only
  rw [hl, bind_ok, List.drop_of_length_le (by rw [com_vec_set_len_length]), List.append_nil,
    List.take_length, zipWith_take_left]

theorem zipWith_and_comm (a b : List Nat) :
    List.zipWith (fun x y => x &&& y) b a = List.zipWith (fun x y => x &&& y) a b := by
  rw [List.zipWith_comm]
  congr 1
  funext x y
  exact Nat.and_comm _ _

theorem com_biguint_and_eq (fresh : Nat → Nat) (d : List Nat) (a b : Operand) :
    com_biguint_and fresh d a b
      = trim_zeros fresh (List.zipWith (fun x y => x &&& y) (a.view d) (b.view d))
          (min (a.view d).length (b.view d).length) := by
  unfold com_biguint_and
  dsimp only
  by_cases h : (b.view d).length > (a.view d).length
  · rw [if_pos h, internal_value_and_eq fresh d b a (by omega), zipWith_and_comm,
      Nat.min_eq_left (by omega)]
  · rw [if_neg h, internal_value_and_eq fresh d a b (by omega), Nat.min_eq_right (by omega)]

theorem internal_value_or_eq (fresh : Nat → Nat) (d : List Nat) (a b : Operand)
    (h : (b.view d).length ≤ (a.view d).length) :
    internal_value_or fresh d a (a.view d).length b (b.view d).length
      = Except.ok (List.zipWith (fun x y => x ||| y) (a.view d) (b.view d)
          ++ (a.view d).drop (b.view d).length) := by
  unfold internal_value_or
  have hl := loopUp_zipWith fresh (fun x y => x ||| y) a b d (b.view d).length
    (a.view d).length h h (le_refl _)
  beta_reduce at hl
  rw [List.take_length, zipWith_take_left] at hl
  have hz : (List.zipWith (fun x y => x ||| y) (a.view d) (b.view d)).length
      = (b.view d).length := by
    rw [List.length_zipWith]; omega
  have hx : ((a.view d).drop (b.view d).length).length
      = (a.view d).length - (b.view d).length := List.length_drop _ _
  have h2 := loopUp_map_inv (fun x : Nat => x)
    (fun i dest_arr => rd a dest_arr i >>= fun x => wr dest_arr i x)
    ((a.view d).drop (b.view d).length) (b.view d).length
    (List.zipWith (fun x y => x ||| y) (a.view d) (b.view d)
      ++ (com_vec_set_len fresh d (a.view d).length).drop (b.view d).length)
    (by simp only [List.length_append, List.length_drop, com_vec_set_len_length, hz]; omega)
    (fun k hk e he _ => by
      rw [hx] at hk
      beta_reduce
      rw [rd_after_set_len fresh a d e (a.view d).length ((b.view d).length + k) (by omega)
        (by omega) (by
          rw [he, List.getElem?_append_right (by rw [hz]; omega), hz, List.getElem?_drop]
          congr 1
          omega), bind_ok, List.getElem_drop])
  rw [hx] at h2
  rw [decide_eq_true h, com_assert_m_true, bind_ok]
  dsimp only
  rw [hl, bind_ok, h2]
  have hd : List.drop ((b.view d).length + ((a.view d).length - (b.view d).length))
      (List.zipWith (fun x y => x ||| y) (a.view d) (b.view d)
        ++ (com_vec_set_len fresh d (a.view d).length).drop (b.view d).length) = [] :=
    List.drop_of_length_le (by
      rw [List.length_append, List.length_drop, com_vec_set_len_length, hz])
  rw [List.take_left' hz, List.map_id', hd]
  simp

/-! ## Single-word multiplication -/

theorem value_mul_words (b : Nat) : ∀ (a : List Nat) (c : Nat),
    value (mul_words b a c) = value a * b + c := by
  intro a
  induction a with
  | nil =>
    intro c
    unfold mul_words
    by_cases h : c ≠ 0
    · rw [if_pos h, value_cons, value_nil]
      omega
    · rw [if_neg h, value_nil]
      omega
  | cons w ws ih =>
    intro c
    unfold mul_words
    rw [value_cons, value_cons, ih, Nat.add_mul, Nat.mul_add, Nat.mul_assoc]
    have := Nat.mod_add_div (w * b + c) (2 ^ 32)
    omega

theorem mul_step_bound (x b c : Nat) (hx : x < 2 ^ 32) (hb : b < 2 ^ 32) (hc : c < 2 ^ 32) :
    x * b + c < 2 ^ 64 := by
  have h1 : x * b ≤ (2 ^ 32 - 1) * (2 ^ 32 - 1) := Nat.mul_le_mul (by omega) (by omega)
  have h2 : (2 ^ 32 - 1) * (2 ^ 32 - 1) + 2 ^ 32 ≤ 2 ^ 64 := by norm_num
  omega

/-- The words and the final carry the loop of `internal_value_mul_u32_arr_u32` produces are
those of `mul_words`. -/
theorem scan_mul_words (b : Nat) (hb : b < 2 ^ 32) : ∀ (a : List Nat) (c : Nat),
    wellFormed a → c < 2 ^ 32 →
    (if scanEnd (fun x s => (to_u32 (to_u64 (x * b + s) &&& 0x00000000FFFFFFFF),
          to_u32 (to_u64 (x * b + s) >>> 32))) a c ≠ 0
      then com_vec_push (scanOut (fun x s => (to_u32 (to_u64 (x * b + s) &&& 0x00000000FFFFFFFF),
          to_u32 (to_u64 (x * b + s) >>> 32))) a c)
        (scanEnd (fun x s => (to_u32 (to_u64 (x * b + s) &&& 0x00000000FFFFFFFF),
          to_u32 (to_u64 (x * b + s) >>> 32))) a c)
      else scanOut (fun x s => (to_u32 (to_u64 (x * b + s) &&& 0x00000000FFFFFFFF),
          to_u32 (to_u64 (x * b + s) >>> 32))) a c)
      = mul_words b a c := by
  intro a
  induction a with
  | nil =>
    intro c _ _
    simp only [scanEnd, scanOut, mul_words, com_vec_push, List.nil_append]
  | cons x xs ih =>
    intro c wa hc
    rw [wellFormed_cons] at wa
    have hlt := mul_step_bound x b c wa.1 hb hc
    have h1 : to_u64 (x * b + c) = x * b + c := Nat.mod_eq_of_lt hlt
    have h2 : to_u32 ((x * b + c) &&& 0x00000000FFFFFFFF) = (x * b + c) % 2 ^ 32 := by
      unfold to_u32
      rw [show (0x00000000FFFFFFFF : Nat) = 2 ^ 32 - 1 by norm_num,
        Nat.and_pow_two_sub_one_eq_mod, Nat.mod_mod]
    have h3 : to_u32 ((x * b + c) >>> 32) = (x * b + c) / 2 ^ 32 := by
      unfold to_u32
      rw [Nat.shiftRight_eq_div_pow]
      apply Nat.mod_eq_of_lt
      omega
    have h4 : (x * b + c) / 2 ^ 32 < 2 ^ 32 := by omega
    have := ih ((x * b + c) / 2 ^ 32) wa.2 h4
    simp only [scanEnd, scanOut, mul_words, com_vec_push, List.cons_append, h1, h2, h3] at this ⊢
    rw [← this]
    split <;> rfl

/-- The single-word product of an operand, which may be the destination. -/
theorem internal_value_mul_u32_arr_u32_eq (fresh : Nat → Nat) (d : List Nat) (a : Operand)
    (b : Nat) (wa : wellFormed (a.view d)) (hb : b < 2 ^ 32) :
    internal_value_mul_u32_arr_u32 fresh d a (a.view d).length b
      = Except.ok (mul_words b (a.view d) 0) := by
  unfold internal_value_mul_u32_arr_u32
  have hl := loopUp_scan_inv
    (fun x s => (to_u32 (to_u64 (x * b + s) &&& 0x00000000FFFFFFFF),
          to_u32 (to_u64 (x * b + s) >>> 32)))
    (fun i (s : List Nat × Nat) =>
      rd a s.1 i >>= fun aval =>
      let tmp := to_u64 (aval * b + s.2)
      let carry := to_u32 (tmp >>> 32)
      wr s.1 i (to_u32 (tmp &&& 0x00000000FFFFFFFF)) >>= fun dest_arr => pure (dest_arr, carry))
    (a.view d) 0 (com_vec_set_len fresh d (a.view d).length) 0
    (by rw [com_vec_set_len_length]; omega)
    (fun k hk e s he _ => by
      rw [Nat.zero_add] at he
      beta_reduce
      rw [Nat.zero_add, rd_after_set_len fresh a d e (a.view d).length k hk hk he, bind_ok])
  rw [hl, bind_ok]
  dsimp only
  rw [List.take_zero, List.nil_append, Nat.zero_add,
    List.drop_of_length_le (by rw [com_vec_set_len_length]), List.append_nil]
  have := scan_mul_words b hb (a.view d) 0 wa (by norm_num)
  rw [← this]
  split <;> rfl

theorem internal_value_mul_u32_arr_u32_other (fresh : Nat → Nat) (d a : List Nat) (b : Nat)
    (wa : wellFormed a) (hb : b < 2 ^ 32) :
    internal_value_mul_u32_arr_u32 fresh d (Operand.other a) a.length b
      = Except.ok (mul_words b a 0) :=
  internal_value_mul_u32_arr_u32_eq fresh d (Operand.other a) b wa hb

theorem mul_words_one : ∀ (a : List Nat), wellFormed a → mul_words 1 a 0 = a := by
  intro a
  induction a with
  | nil => intro _; rfl
  | cons w ws ih =>
    intro wa
    rw [wellFormed_cons] at wa
    unfold mul_words
    rw [Nat.mul_one, Nat.add_zero, Nat.mod_eq_of_lt wa.1, Nat.div_eq_of_lt wa.1, ih wa.2]

/-! ## Adding to zero, and multiplying by one and by zero -/

theorem scan_add_carry_free : ∀ (t : List Nat), wellFormed t →
    scanOut (fun x (c : Nat) =>
        if to_u32 (x + c) > u32_max_m then (to_u32 (to_u32 (x + c) - u32_max_m), 1)
        else (to_u32 (to_u32 (x + c)), 0)) t 0 = t ∧
    scanEnd (fun x (c : Nat) =>
        if to_u32 (x + c) > u32_max_m then (to_u32 (to_u32 (x + c) - u32_max_m), 1)
        else (to_u32 (to_u32 (x + c)), 0)) t 0 = 0 := by
  intro t
  induction t with
  | nil => intro _; exact ⟨rfl, rfl⟩
  | cons x xs ih =>
    intro wt
    rw [wellFormed_cons] at wt
    have h1 : to_u32 (x + 0) = x := Nat.mod_eq_of_lt wt.1
    have h2 : ¬ x > u32_max_m := by unfold u32_max_m; omega
    have h3 : to_u32 x = x := Nat.mod_eq_of_lt wt.1
    simp only [scanOut, scanEnd, h1, h2, h3, if_false]
    exact ⟨by rw [(ih wt.2).1], (ih wt.2).2⟩

/-- Adding a value to an operand of no words copies the value. -/
theorem internal_value_add_u32_arr_zero (fresh : Nat → Nat) (d t : List Nat) (b : Operand)
    (wt : wellFormed t) :
    internal_value_add_u32_arr fresh d (Operand.other t) t.length b 0 = Except.ok t := by
  unfold internal_value_add_u32_arr
  have hl := loopUp_scan
    (fun x (c : Nat) =>
        if to_u32 (x + c) > u32_max_m then (to_u32 (to_u32 (x + c) - u32_max_m), 1)
        else (to_u32 (to_u32 (x + c)), 0))
    (fun i (s : List Nat × Nat) =>
      rd (Operand.other t) s.1 i >>= fun aval =>
      let tmp := to_u32 (aval + s.2)
      if tmp > u32_max_m then
        wr s.1 i (to_u32 (tmp - u32_max_m)) >>= fun dest_arr => pure (dest_arr, 1)
      else
        wr s.1 i (to_u32 tmp) >>= fun dest_arr => pure (dest_arr, 0))
    t 0 (com_vec_set_len fresh d t.length) 0
    (by rw [com_vec_set_len_length]; omega)
    (fun k hk e s => by
      beta_reduce
      rw [Nat.zero_add, rd_other, rdl_of_lt t k hk, bind_ok]
      dsimp only
      split <;> rfl)
  rw [decide_eq_true (Nat.zero_le _), com_assert_m_true, bind_ok]
  dsimp only
  rw [show loopUp _ 0 0 (com_vec_set_len fresh d t.length, 0)
      = Except.ok (com_vec_set_len fresh d t.length, 0) from rfl, bind_ok, Nat.sub_zero, hl,
    bind_ok]
  dsimp only
  rw [(scan_add_carry_free t wt).1, (scan_add_carry_free t wt).2, List.take_zero,
    List.nil_append, Nat.zero_add, List.drop_of_length_le (by rw [com_vec_set_len_length]),
    List.append_nil]
  rfl

theorem com_biguint_set_other (fresh : Nat → Nat) (d s : List Nat) :
    com_biguint_set fresh d (Operand.other s) = Except.ok s := by
  unfold com_biguint_set com_mem_move
  simp only [Operand.view, com_vec_set_len_length, le_refl, and_self, if_true, List.take_length]
  rw [List.drop_of_length_le (by rw [com_vec_set_len_length]), List.append_nil]
  rfl

theorem com_biguint_set_u64_zero (fresh : Nat → Nat) (d : List Nat) :
    com_biguint_set_u64 fresh d 0 = Except.ok [] := rfl

theorem com_biguint_add_to_empty (fresh : Nat → Nat) (t : List Nat) (wt : wellFormed t) :
    com_biguint_add fresh [] Operand.dest (Operand.other t) = Except.ok t := by
  unfold com_biguint_add
  simp only [Operand.view, List.length_nil]
  by_cases h : 0 ≥ t.length
  · have ht : t = [] := List.length_eq_zero.mp (by omega)
    subst ht
    rfl
  · rw [if_neg h]
    exact internal_value_add_u32_arr_zero fresh [] t Operand.dest wt

theorem internal_value_mul_u32_arr_one (fresh : Nat → Nat) (d a tmp : List Nat)
    (wa : wellFormed a) :
    internal_value_mul_u32_arr fresh d (Operand.other a) a.length (Operand.other [1]) 1 tmp
      = Except.ok (a, a) := by
  unfold internal_value_mul_u32_arr
  rw [com_biguint_set_u64_zero, bind_ok]
  simp only [loopUp, rd_other, Operand.view]
  rw [show rdl [1] 0 = Except.ok 1 from rfl, bind_ok,
    internal_value_mul_u32_arr_u32_other fresh tmp a 1 wa (by norm_num), bind_ok,
    mul_words_one a wa]
  simp only [com_vec_insert_zeros, List.replicate_zero, List.nil_append]
  rw [com_biguint_add_to_empty fresh a wa]
  rfl

theorem internal_value_mul_u32_arr_zero (fresh : Nat → Nat) (d : List Nat) (a b : Operand)
    (alen : Nat) (tmp : List Nat) :
    internal_value_mul_u32_arr fresh d a alen b 0 tmp = Except.ok ([], tmp) := rfl

/-! ## The claims C11 to C20 -/

/-- C11 (fails on the code): for a = [5] and b = [3], adding b to the result of
`com_biguint_sub` gives the words [11] and not a: the subtraction leaves [8], the sum, because
`com_biguint_sub` calls the addition helper. -/
theorem com_biguint_add_after_sub :
    (∀ (fresh : Nat → Nat) (d e : List Nat),
      (com_biguint_sub fresh d (Operand.other [5]) (Operand.other [3]) >>= fun r =>
        com_biguint_add fresh e (Operand.other r) (Operand.other [3])) = Except.ok [11]) ∧
    value [5] ≥ value [3] ∧ normalized [5] ∧ normalized [3] := by
  refine ⟨?_, by decide, by decide, by decide⟩
  intro fresh d e
  simp [com_biguint_sub, com_biguint_cmp, internal_value_cmp_u32_arr, cmp_loop, com_biguint_add,
    internal_value_add_u32_arr, com_assert_m, com_vec_set_len, loopUp, rd, rdl, Operand.view,
    wr, to_u64, to_u32, com_vec_push, List.range_succ, u32_max_m]
  rfl

/-- C12 (fails on the code): shifting left and then right by the same count does not give the
operand back.  For a = 0 (no words) and n = 0 the right shift reads outside its operand; for
a = [1], n = 1 and a destination that held [6] the left shift leaves [12] and the right
shift returns [6]; for a = [1] and n = 32 the round trip returns the word the destination
held, or an undefined one. -/
theorem com_biguint_rshift_after_lshift :
    (∀ (fresh : Nat → Nat) (d e : List Nat),
      (com_biguint_lshift fresh d (Operand.other []) 0 >>= fun r =>
        com_biguint_rshift fresh e (Operand.other r) 0) = Except.error Fault.outOfBounds) ∧
    (∀ (fresh : Nat → Nat) (e : List Nat),
      (com_biguint_lshift fresh [6] (Operand.other [1]) 1 >>= fun r =>
        com_biguint_rshift fresh e (Operand.other r) 1) = Except.ok [6]) ∧
    (∀ (fresh : Nat → Nat) (e : List Nat),
      (com_biguint_lshift fresh [5, 7] (Operand.other [1]) 32 >>= fun r =>
        com_biguint_rshift fresh e (Operand.other r) 32) = Except.ok [7]) := by
  refine ⟨?_, ?_, ?_⟩
  · intro fresh d e
    rw [show com_biguint_lshift fresh d (Operand.other []) 0 = Except.ok [] from rfl, bind_ok]
    unfold com_biguint_rshift
    simp only [Operand.view, List.length_nil, usize_sub]
    norm_num
    rw [show (18446744073709551615 : Nat) = 18446744073709551614 + 1 from rfl, loopUp]
    rfl
  · intro fresh e
    have h1 : com_biguint_lshift fresh [6] (Operand.other [1]) 1 = Except.ok [12] := by
      simp [com_biguint_lshift, com_vec_set_len, loopDown, rd, rdl, Operand.view, wr, shl32,
        to_u32, to_u64, com_vec_push, com_mem_zero_arr_m, List.range_succ]
      rfl
    rw [h1, bind_ok]
    unfold com_biguint_rshift
    simp only [Operand.view, List.length_singleton, usize_sub]
    norm_num
    simp [loopUp, rd, rdl, Operand.view, shr32, wr, com_vec_set_len_one]
    rfl
  · intro fresh e
    have h1 : com_biguint_lshift fresh [5, 7] (Operand.other [1]) 32 = Except.ok [0, 7] := by
      simp [com_biguint_lshift, com_vec_set_len, loopDown, rd, rdl, Operand.view, wr, shl32,
        to_u32, to_u64, com_vec_push, com_mem_zero_arr_m, List.range_succ]
      rfl
    rw [h1, bind_ok]
    unfold com_biguint_rshift
    simp only [Operand.view, List.length_cons, List.length_nil, usize_sub]
    norm_num
    simp [loopUp, rd, rdl, Operand.view, shr32, wr, com_vec_set_len_one, com_vec_set_len_two]
    rfl

/-- C13 (fails on the code): `com_biguint_lshift` of the value 1 by 32 bits leaves [0, w],
where w is the word the destination held at index 1, or an undefined word when it held
none; a destination that held [5, 7] ends as [0, 7] and not as [0, 1]. -/
theorem com_biguint_lshift_one_word :
    (∀ (fresh : Nat → Nat) (d : List Nat),
      com_biguint_lshift fresh d (Operand.other [1]) 32
        = Except.ok [0, d.getD 1 (fresh 1)]) ∧
    (∀ (fresh : Nat → Nat),
      com_biguint_lshift fresh [5, 7] (Operand.other [1]) 32 = Except.ok [0, 7]) ∧
    value [0, 7] ≠ value [1] * 2 ^ 32 ∧ value [0, 1] = value [1] * 2 ^ 32 := by
  refine ⟨?_, ?_, by decide, by decide⟩
  · intro fresh d
    simp [com_biguint_lshift, com_vec_set_len, loopDown, rd, rdl, Operand.view, wr, shl32,
      to_u32, to_u64, com_vec_push, com_mem_zero_arr_m, List.range_succ]
    rfl
  · intro fresh
    simp [com_biguint_lshift, com_vec_set_len, loopDown, rd, rdl, Operand.view, wr, shl32,
      to_u32, to_u64, com_vec_push, com_mem_zero_arr_m, List.range_succ]
    rfl

/-- C14 (fails on the code): `com_biguint_rshift` of a = 0 (no words) reads outside its
operand for every bit count below 32, and for a = [1] and 32 bits, where the quotient is 0,
it writes outside the destination. -/
theorem com_biguint_rshift_out_of_bounds :
    (∀ (fresh : Nat → Nat) (d : List Nat) (bits : Nat), bits < 32 →
      com_biguint_rshift fresh d (Operand.other []) bits = Except.error Fault.outOfBounds) ∧
    (∀ (fresh : Nat → Nat) (d : List Nat),
      com_biguint_rshift fresh d (Operand.other [1]) 32 = Except.error Fault.outOfBounds) ∧
    normalized [] ∧ normalized [1] := by
  refine ⟨?_, ?_, by decide, by decide⟩
  · intro fresh d bits hb
    have h1 : bits / 32 = 0 := Nat.div_eq_of_lt hb
    unfold com_biguint_rshift
    simp only [Operand.view, List.length_nil, usize_sub, h1]
    norm_num
    rw [show (18446744073709551615 : Nat) = 18446744073709551614 + 1 from rfl, loopUp]
    rfl
  · intro fresh d
    unfold com_biguint_rshift
    simp only [Operand.view, List.length_singleton, usize_sub]
    norm_num
    simp [loopUp, rd, rdl, Operand.view, shr32, wr, com_vec_set_len_one]
    rfl

/-- C17 (fails on the code): `com_biguint_xor` of a = [5, 7] and b = [3] leaves [6]: the
second word of the longer operand does not pass through, and the value is not the bitwise
XOR of the values, which is the value of [6, 7]. -/
theorem com_biguint_xor_longer_operand :
    (∀ (fresh : Nat → Nat) (d : List Nat),
      com_biguint_xor fresh d (Operand.other [5, 7]) (Operand.other [3]) = Except.ok [6]) ∧
    value [6] ≠ value [5, 7] ^^^ value [3] ∧
    value [6, 7] = value [5, 7] ^^^ value [3] ∧ normalized [5, 7] ∧ normalized [3] := by
  refine ⟨?_, by decide, by decide, by decide, by decide⟩
  intro fresh d
  simp [com_biguint_xor, internal_value_xor, trim_zeros, count_zeros, com_assert_m,
    com_vec_set_len, loopUp, rd, rdl, Operand.view, wr, List.range_succ]
  rfl

/-- C15: for all sequences a and b of 32-bit words (normalized or not; either may be the
destination itself) and any previous destination, `com_biguint_and` leaves the word-wise AND
of a and b over the shorter operand's length with its most significant zero words cut off: a
normalized sequence whose value is the bitwise AND of the two values; 0b1010 AND 0b1100
gives 0b1000. -/
theorem com_biguint_and_spec (fresh : Nat → Nat) (d : List Nat) (a b : Operand)
    (wa : wellFormed (a.view d)) (wb : wellFormed (b.view d)) :
    (∃ m, m ≤ min (a.view d).length (b.view d).length ∧
      com_biguint_and fresh d a b
        = Except.ok ((List.zipWith (fun x y => x &&& y) (a.view d) (b.view d)).take m) ∧
      value ((List.zipWith (fun x y => x &&& y) (a.view d) (b.view d)).take m)
        = value (a.view d) &&& value (b.view d) ∧
      normalized ((List.zipWith (fun x y => x &&& y) (a.view d) (b.view d)).take m)) ∧
    com_biguint_and fresh d (Operand.other [0b1010]) (Operand.other [0b1100])
      = Except.ok [0b1000] := by
  constructor
  · have hlen : (List.zipWith (fun x y => x &&& y) (a.view d) (b.view d)).length
        = min (a.view d).length (b.view d).length := List.length_zipWith _ _ _
    obtain ⟨m, hm, h1, h2, h3⟩ :=
      trim_zeros_spec fresh (List.zipWith (fun x y => x &&& y) (a.view d) (b.view d))
    rw [hlen] at hm h1
    refine ⟨m, hm, ?_, ?_, h3⟩
    · rw [com_biguint_and_eq, h1]
    · rw [h2, value_zipWith_and _ _ wa wb]
  · rw [com_biguint_and_eq]
    rfl

/-- C15, at a = [0b1010, 5] held by the destination and b = [0b1100]. -/
theorem com_biguint_and_spec_witness :
    (wellFormed (Operand.dest.view [0b1010, 5]) ∧
      wellFormed ((Operand.other [0b1100]).view [0b1010, 5])) ∧
    ((∃ m, m ≤ min (Operand.dest.view [0b1010, 5]).length
          ((Operand.other [0b1100]).view [0b1010, 5]).length ∧
      com_biguint_and noFresh [0b1010, 5] Operand.dest (Operand.other [0b1100])
        = Except.ok ((List.zipWith (fun x y => x &&& y) (Operand.dest.view [0b1010, 5])
            ((Operand.other [0b1100]).view [0b1010, 5])).take m) ∧
      value ((List.zipWith (fun x y => x &&& y) (Operand.dest.view [0b1010, 5])
            ((Operand.other [0b1100]).view [0b1010, 5])).take m)
        = value (Operand.dest.view [0b1010, 5])
          &&& value ((Operand.other [0b1100]).view [0b1010, 5]) ∧
      normalized ((List.zipWith (fun x y => x &&& y) (Operand.dest.view [0b1010, 5])
            ((Operand.other [0b1100]).view [0b1010, 5])).take m)) ∧
    com_biguint_and noFresh [0b1010, 5] (Operand.other [0b1010]) (Operand.other [0b1100])
      = Except.ok [0b1000]) :=
  ⟨by decide,
   com_biguint_and_spec noFresh [0b1010, 5] Operand.dest (Operand.other [0b1100]) (by decide)
     (by decide)⟩

/-- C16: for all normalized sequences a and b of 32-bit words (either may be the destination
itself) and any previous destination, `com_biguint_or` leaves a sequence of exactly the longer
operand's length whose value is the bitwise OR of the two values, and that sequence is
normalized as it stands. -/
theorem com_biguint_or_spec (fresh : Nat → Nat) (d : List Nat) (a b : Operand)
    (wa : wellFormed (a.view d)) (wb : wellFormed (b.view d))
    (na : normalized (a.view d)) (nb : normalized (b.view d)) :
    ∃ r, com_biguint_or fresh d a b = Except.ok r ∧
      r.length = max (a.view d).length (b.view d).length ∧
      value r = value (a.view d) ||| value (b.view d) ∧
      normalized r := by
  unfold com_biguint_or
  dsimp only
  by_cases h : (b.view d).length > (a.view d).length
  · rw [if_pos h, internal_value_or_eq fresh d b a (by omega)]
    refine ⟨_, rfl, ?_, ?_, normalized_zipWith_or _ _ nb (by omega)⟩
    · rw [List.length_append, List.length_zipWith, List.length_drop]
      omega
    · rw [value_zipWith_or _ _ wb wa (by omega), Nat.lor_comm]
  · rw [if_neg h, internal_value_or_eq fresh d a b (by omega)]
    refine ⟨_, rfl, ?_, ?_, normalized_zipWith_or _ _ na (by omega)⟩
    · rw [List.length_append, List.length_zipWith, List.length_drop]
      omega
    · rw [value_zipWith_or _ _ wa wb (by omega)]

/-- C16, at a = [6] held by the destination and b = [1, 0, 9]. -/
theorem com_biguint_or_spec_witness :
    (wellFormed (Operand.dest.view [6]) ∧ wellFormed ((Operand.other [1, 0, 9]).view [6]) ∧
      normalized (Operand.dest.view [6]) ∧ normalized ((Operand.other [1, 0, 9]).view [6])) ∧
    ∃ r, com_biguint_or noFresh [6] Operand.dest (Operand.other [1, 0, 9]) = Except.ok r ∧
      r.length = max (Operand.dest.view [6]).length ((Operand.other [1, 0, 9]).view [6]).length ∧
      value r = value (Operand.dest.view [6]) ||| value ((Operand.other [1, 0, 9]).view [6]) ∧
      normalized r :=
  ⟨by decide,
   com_biguint_or_spec noFresh [6] Operand.dest (Operand.other [1, 0, 9]) (by decide)
     (by decide) (by decide) (by decide)⟩

/-- C18: for every sequence of 32-bit words a, be it the destination itself or not,
`com_biguint_mul` of a and the single word [1] leaves a in the destination. -/
theorem com_biguint_mul_one (fresh : Nat → Nat) (d : List Nat) (a : Operand)
    (wa : wellFormed (a.view d)) :
    com_biguint_mul fresh d a (Operand.other [1]) = Except.ok (a.view d) := by
  unfold com_biguint_mul
  cases a with
  | dest =>
    simp only [Operand.view, List.length_singleton, or_true, if_true] at wa ⊢
    rw [internal_value_mul_u32_arr_one fresh [] d [] wa, bind_ok]
    exact com_biguint_set_other fresh d d
  | other ws =>
    simp only [Operand.view, List.length_singleton] at wa ⊢
    rw [if_neg (by simp), internal_value_mul_u32_arr_one fresh d ws [] wa]
    rfl

/-- C18, at a = [7, 9] apart from the destination, and at a the destination [7, 9]. -/
theorem com_biguint_mul_one_witness :
    (wellFormed ((Operand.other [7, 9]).view [1, 2, 3]) ∧
      com_biguint_mul noFresh [1, 2, 3] (Operand.other [7, 9]) (Operand.other [1])
        = Except.ok ((Operand.other [7, 9]).view [1, 2, 3])) ∧
    (wellFormed (Operand.dest.view [7, 9]) ∧
      com_biguint_mul noFresh [7, 9] Operand.dest (Operand.other [1])
        = Except.ok (Operand.dest.view [7, 9])) :=
  ⟨⟨by decide, com_biguint_mul_one noFresh [1, 2, 3] (Operand.other [7, 9]) (by decide)⟩,
   ⟨by decide, com_biguint_mul_one noFresh [7, 9] Operand.dest (by decide)⟩⟩

/-- C19: for every a, be it the destination itself or not, `com_biguint_mul` of a and zero,
the empty sequence, leaves the empty sequence, whatever the destination held before. -/
theorem com_biguint_mul_zero (fresh : Nat → Nat) (d : List Nat) (a : Operand) :
    com_biguint_mul fresh d a (Operand.other []) = Except.ok [] := by
  unfold com_biguint_mul
  cases a with
  | dest =>
    simp only [Operand.view, List.length_nil, or_true, if_true]
    rw [internal_value_mul_u32_arr_zero, bind_ok]
    exact com_biguint_set_other fresh d []
  | other ws =>
    simp only [Operand.view, List.length_nil]
    rw [if_neg (by simp), internal_value_mul_u32_arr_zero]
    rfl

/-- C20: for every sequence a of 32-bit words (which may be the destination itself), every
32-bit word b and any previous destination, `com_biguint_mul_u32` leaves the words
`mul_words b a 0`: each word is the low 32 bits of a[i] * b + carry, the carry is the high 32
bits, a nonzero final carry is appended; their value is value a * b. -/
theorem com_biguint_mul_u32_spec (fresh : Nat → Nat) (d : List Nat) (a : Operand) (b : Nat)
    (wa : wellFormed (a.view d)) (hb : b < 2 ^ 32) :
    com_biguint_mul_u32 fresh d a b = Except.ok (mul_words b (a.view d) 0) ∧
    value (mul_words b (a.view d) 0) = value (a.view d) * b := by
  constructor
  · unfold com_biguint_mul_u32
    exact internal_value_mul_u32_arr_u32_eq fresh d a b wa hb
  · rw [value_mul_words, Nat.add_zero]

/-- C20, at a = [4294967295, 4294967295] and b = 4294967295. -/
theorem com_biguint_mul_u32_spec_witness :
    (wellFormed ((Operand.other [4294967295, 4294967295]).view [9]) ∧ 4294967295 < 2 ^ 32) ∧
    com_biguint_mul_u32 noFresh [9] (Operand.other [4294967295, 4294967295]) 4294967295
      = Except.ok (mul_words 4294967295 ((Operand.other [4294967295, 4294967295]).view [9]) 0) ∧
    value (mul_words 4294967295 ((Operand.other [4294967295, 4294967295]).view [9]) 0)
      = value ((Operand.other [4294967295, 4294967295]).view [9]) * 4294967295 :=
  ⟨by decide,
   com_biguint_mul_u32_spec noFresh [9] (Operand.other [4294967295, 4294967295]) 4294967295
     (by decide) (by decide)⟩

/-! ## The claims C21 to C28 -/

/-- C21 (fails on the code): `com_biguint_div_rem` of a = [2] and the nonzero b = [1] ends in a
fatal assertion: the division returns the quotient [3], and the subtraction that follows
fails its precondition because 3 > 2.  With b = 0 it ends in the assertion on b. -/
theorem com_biguint_div_rem_asserts :
    com_biguint_div_rem noFresh 10 [] [] [2] [1] = Except.error Fault.assertion ∧
    com_biguint_div noFresh 10 [] (Operand.other [2]) (Operand.other [1]) = Except.ok [3] ∧
    com_biguint_div_rem noFresh 10 [] [] [2] [] = Except.error Fault.assertion ∧
    normalized [2] ∧ normalized [1] := by
  decide

/-- C23 (fails on the code): `com_biguint_sub_u32` of a = [5] and the word 3 ends in a fatal
assertion, and so does it for a = [5] and 5, and for a = [5, 1] and 5, although the word is
at most the value of a each time. -/
theorem com_biguint_sub_u32_asserts :
    (∀ (fresh : Nat → Nat) (d : List Nat),
      com_biguint_sub_u32 fresh d (Operand.other [5]) 3 = Except.error Fault.assertion) ∧
    (∀ (fresh : Nat → Nat) (d : List Nat),
      com_biguint_sub_u32 fresh d (Operand.other [5]) 5 = Except.error Fault.assertion) ∧
    (∀ (fresh : Nat → Nat) (d : List Nat),
      com_biguint_sub_u32 fresh d (Operand.other [5, 1]) 5 = Except.error Fault.assertion) ∧
    3 ≤ value [5] ∧ 5 ≤ value [5] ∧ 5 ≤ value [5, 1] := by
  refine ⟨?_, ?_, ?_, by decide, by decide, by decide⟩
  · intro fresh d
    simp [com_biguint_sub_u32, internal_value_sub_u32_arr, internal_value_cmp_u32_arr, cmp_loop,
      com_assert_m, rdl, Operand.view]
    rfl
  · intro fresh d
    simp [com_biguint_sub_u32, internal_value_sub_u32_arr, internal_value_cmp_u32_arr, cmp_loop,
      com_assert_m, rdl, rd, wr, loopUp, Operand.view, com_vec_set_len_one, to_u32, u32_max_m]
    rfl
  · intro fresh d
    simp [com_biguint_sub_u32, internal_value_sub_u32_arr, internal_value_cmp_u32_arr, cmp_loop,
      com_assert_m, rdl, Operand.view]
    rfl

/-- C24 (fails on the code): `com_biguint_add_u32` with the word 0 returns without writing the
destination, which keeps what it held and does not receive the value of a: [9] stays [9]
for a = [5].  `com_biguint_add` of a = [5] and the one-word operand [0] leaves [5]. -/
theorem com_biguint_add_u32_zero_word :
    (∀ (fresh : Nat → Nat) (d : List Nat) (a : Operand),
      com_biguint_add_u32 fresh d a 0 = Except.ok d) ∧
    (∀ (fresh : Nat → Nat),
      com_biguint_add_u32 fresh [9] (Operand.other [5]) 0 = Except.ok [9]) ∧
    (∀ (fresh : Nat → Nat),
      com_biguint_add fresh [9] (Operand.other [5]) (Operand.other [0]) = Except.ok [5]) ∧
    value [9] ≠ value [5] + 0 := by
  refine ⟨fun _ _ _ => rfl, fun _ => rfl, ?_, by decide⟩
  intro fresh
  simp [com_biguint_add, internal_value_add_u32_arr, com_assert_m, com_vec_set_len_one, loopUp,
    rd, rdl, Operand.view, wr, to_u64, to_u32, com_vec_push, u32_max_m]
  rfl

/-- C25: `com_biguint_sub_u32` applied to a zero a (no words) ends in a fatal assertion for
every nonzero word b, and for b = 0 it returns without failing and leaves the destination as
it was. -/
theorem com_biguint_sub_u32_of_zero (fresh : Nat → Nat) (d : List Nat) (a : Operand)
    (ha : a.view d = []) :
    (∀ b : Nat, b ≠ 0 → com_biguint_sub_u32 fresh d a b = Except.error Fault.assertion) ∧
    com_biguint_sub_u32 fresh d a 0 = Except.ok d := by
  constructor
  · intro b hb
    unfold com_biguint_sub_u32
    rw [if_neg hb]
    dsimp only
    rw [ha, List.length_nil, if_pos rfl, decide_eq_false hb]
    rfl
  · rfl

/-- C25, at a zero a apart from the destination [7, 7]. -/
theorem com_biguint_sub_u32_of_zero_witness :
    (Operand.other []).view [7, 7] = [] ∧
    ((∀ b : Nat, b ≠ 0 →
        com_biguint_sub_u32 noFresh [7, 7] (Operand.other []) b
          = Except.error Fault.assertion) ∧
      com_biguint_sub_u32 noFresh [7, 7] (Operand.other []) 0 = Except.ok [7, 7]) :=
  ⟨rfl, com_biguint_sub_u32_of_zero noFresh [7, 7] (Operand.other []) rfl⟩

theorem or_eq_right_iff_subset (x y : Nat) : (x ||| y) = y ↔ flags_subset x y := by
  unfold flags_subset
  constructor
  · intro h i hi
    have := congrArg (fun n => Nat.testBit n i) h
    simp only [Nat.testBit_or, hi, Bool.true_or] at this
    exact this.symm
  · intro h
    apply Nat.eq_of_testBit_eq
    intro i
    rw [Nat.testBit_or]
    cases hx : x.testBit i
    · simp
    · simp [h i hx]

theorem and_eq_right_iff_subset (x y : Nat) : (x &&& y) = y ↔ flags_subset y x := by
  unfold flags_subset
  constructor
  · intro h i hi
    have := congrArg (fun n => Nat.testBit n i) h
    simp only [Nat.testBit_and, hi, Bool.and_true] at this
    exact this
  · intro h
    apply Nat.eq_of_testBit_eq
    intro i
    rw [Nat.testBit_and]
    cases hy : y.testBit i
    · simp
    · simp [h i hy]

/-- C26: `com_allocator_alloc` returns what the allocator's allocation function returns for
the request exactly when the requested flags are a subset of the supported flags and a
superset of the default flags; otherwise it ends in a fatal assertion. -/
theorem com_allocator_alloc_spec {H : Type} (a : com_allocator H)
    (data : com_allocator_HandleData) :
    ((flags_subset data.flags a._supported_flags ∧ flags_subset a._default_flags data.flags) →
      com_allocator_alloc a data = Except.ok (a._allocator_fn data)) ∧
    (¬ (flags_subset data.flags a._supported_flags ∧ flags_subset a._default_flags data.flags) →
      com_allocator_alloc a data = Except.error Fault.assertion) ∧
    ((∃ h, com_allocator_alloc a data = Except.ok h) ↔
      (flags_subset data.flags a._supported_flags ∧
        flags_subset a._default_flags data.flags)) := by
  have h1 : (flags_subset data.flags a._supported_flags ∧
      flags_subset a._default_flags data.flags) →
      com_allocator_alloc a data = Except.ok (a._allocator_fn data) := by
    rintro ⟨hs, hd⟩
    unfold com_allocator_alloc
    rw [decide_eq_true ((or_eq_right_iff_subset _ _).mpr hs), com_assert_m_true, bind_ok,
      decide_eq_true ((and_eq_right_iff_subset _ _).mpr hd), com_assert_m_true, bind_ok]
    rfl
  have h2 : ¬ (flags_subset data.flags a._supported_flags ∧
      flags_subset a._default_flags data.flags) →
      com_allocator_alloc a data = Except.error Fault.assertion := by
    intro hn
    unfold com_allocator_alloc
    by_cases hs : flags_subset data.flags a._supported_flags
    · have hd : ¬ flags_subset a._default_flags data.flags := fun h => hn ⟨hs, h⟩
      rw [decide_eq_true ((or_eq_right_iff_subset _ _).mpr hs), com_assert_m_true, bind_ok,
        decide_eq_false (fun e => hd ((and_eq_right_iff_subset _ _).mp e))]
      rfl
    · rw [decide_eq_false (fun e => hs ((or_eq_right_iff_subset _ _).mp e))]
      rfl
  refine ⟨h1, h2, ?_, fun hc => ⟨_, h1 hc⟩⟩
  rintro ⟨h, hh⟩
  by_contra hn
  rw [h2 hn] at hh
  cases hh

/-- C26, at an allocator that supports the flags 0b111 and mandates 0b001, for the request of
the flags 0b011. -/
theorem com_allocator_alloc_spec_witness :
    com_allocator_alloc
        { _supported_flags := 0b111, _default_flags := 0b001,
          _allocator_fn := fun data => data.len }
        { len := 40, flags := 0b011 } = Except.ok 40 ∧
    com_allocator_alloc
        { _supported_flags := 0b111, _default_flags := 0b001,
          _allocator_fn := fun data => data.len }
        { len := 40, flags := 0b1011 } = Except.error Fault.assertion ∧
    com_allocator_alloc
        { _supported_flags := 0b111, _default_flags := 0b001,
          _allocator_fn := fun data => data.len }
        { len := 40, flags := 0b110 } = Except.error Fault.assertion :=
  ⟨(com_allocator_alloc_spec
      { _supported_flags := 0b111, _default_flags := 0b001,
        _allocator_fn := fun data => data.len }
      { len := 40, flags := 0b011 }).1
      ⟨(or_eq_right_iff_subset _ _).mp (by decide), (and_eq_right_iff_subset _ _).mp (by decide)⟩,
    by decide, by decide⟩

/-- C27 (fails on the code): `com_biguint_rshift` leaves zero when `bits / 32` exceeds the
operand's length, but at the boundary `bits / 32 = len(a)` it does not: for a = [3, 9] and 64
bits it writes outside the destination, and for a = 0 (no words) and 0 bits it reads outside
the operand. -/
theorem com_biguint_rshift_boundary :
    (∀ (fresh : Nat → Nat) (d : List Nat) (a : Operand) (bits : Nat),
      bits / 32 > (a.view d).length → com_biguint_rshift fresh d a bits = Except.ok []) ∧
    (∀ (fresh : Nat → Nat) (d : List Nat),
      com_biguint_rshift fresh d (Operand.other [3, 9]) 64
        = Except.error Fault.outOfBounds) ∧
    (∀ (fresh : Nat → Nat) (d : List Nat),
      com_biguint_rshift fresh d (Operand.other []) 0 = Except.error Fault.outOfBounds) ∧
    64 / 32 ≥ [3, 9].length ∧ 0 / 32 ≥ ([] : List Nat).length := by
  refine ⟨?_, ?_, ?_, by decide, by decide⟩
  · intro fresh d a bits h
    unfold com_biguint_rshift
    dsimp only
    rw [if_pos h]
    rfl
  · intro fresh d
    unfold com_biguint_rshift
    simp only [Operand.view, List.length_cons, List.length_nil, usize_sub]
    norm_num
    simp [loopUp, rd, rdl, Operand.view, shr32, wr, com_vec_set_len_two]
    rfl
  · intro fresh d
    unfold com_biguint_rshift
    simp only [Operand.view, List.length_nil, usize_sub]
    norm_num
    rw [show (18446744073709551615 : Nat) = 18446744073709551614 + 1 from rfl, loopUp]
    rfl

/-- Trimming cuts off exactly the most significant zero words. -/
theorem trim_zeros_cut (fresh : Nat → Nat) (d : List Nat) :
    ∃ m, m ≤ d.length ∧ trim_zeros fresh d d.length = Except.ok (d.take m) ∧
      (∀ i, m ≤ i → i < d.length → d[i]? = some 0) ∧ normalized (d.take m) := by
  obtain ⟨k, hk1, hk2, hk3, hk4⟩ := count_zeros_spec d d.length 0 (le_refl _)
  refine ⟨d.length - k, Nat.sub_le _ _, ?_, hk3, ?_⟩
  · unfold trim_zeros
    rw [hk1, bind_ok, Nat.zero_add, com_vec_set_len_of_le fresh d _ (Nat.sub_le _ _)]
    rfl
  · apply normalized_take d _ (Nat.sub_le _ _)
    intro hpos
    exact hk4 (by omega)

theorem internal_value_xor_eq (fresh : Nat → Nat) (d : List Nat) (a b : Operand)
    (h : (b.view d).length ≤ (a.view d).length) :
    internal_value_xor fresh d a (a.view d).length b (b.view d).length
      = trim_zeros fresh (List.zipWith (fun x y => x ^^^ y) (a.view d) (b.view d))
          (b.view d).length := by
  unfold internal_value_xor
  have hl := loopUp_zipWith fresh (fun x y => x ^^^ y) a b d (b.view d).length
    (b.view d).length (le_refl _) h (le_refl _)
  beta_reduce at hl
  rw [decide_eq_true h, com_assert_m_true, bind_ok]
  dsimp only
  rw [hl, bind_ok, List.drop_of_length_le (by rw [com_vec_set_len_length]), List.append_nil,
    List.take_length, zipWith_take_left]

theorem zipWith_xor_comm (a b : List Nat) :
    List.zipWith (fun x y => x ^^^ y) b a = List.zipWith (fun x y => x ^^^ y) a b := by
  rw [List.zipWith_comm]
  congr 1
  funext x y
  exact Nat.xor_comm _ _

theorem com_biguint_xor_eq (fresh : Nat → Nat) (d : List Nat) (a b : Operand) :
    com_biguint_xor fresh d a b
      = trim_zeros fresh (List.zipWith (fun x y => x ^^^ y) (a.view d) (b.view d))
          (min (a.view d).length (b.view d).length) := by
  unfold com_biguint_xor
  dsimp only
  by_cases h : (b.view d).length > (a.view d).length
  · rw [if_pos h, internal_value_xor_eq fresh d b a (by omega), zipWith_xor_comm,
      Nat.min_eq_left (by omega)]
  · rw [if_neg h, internal_value_xor_eq fresh d a b (by omega), Nat.min_eq_right (by omega)]

/-- C28: for all word sequences a and b (either may be the destination itself) and any
previous destination, `com_biguint_xor` leaves the word-wise XOR of the first
min(len a, len b) words with the most significant zero words cut off, a normalized sequence
no longer than the shorter operand; 0b1010 XOR 0b1100 gives 0b0110. -/
theorem com_biguint_xor_spec (fresh : Nat → Nat) (d : List Nat) (a b : Operand) :
    (∃ m, m ≤ min (a.view d).length (b.view d).length ∧
      com_biguint_xor fresh d a b
        = Except.ok ((List.zipWith (fun x y => x ^^^ y) (a.view d) (b.view d)).take m) ∧
      (∀ i, m ≤ i → i < min (a.view d).length (b.view d).length →
        (List.zipWith (fun x y => x ^^^ y) (a.view d) (b.view d))[i]? = some 0) ∧
      normalized ((List.zipWith (fun x y => x ^^^ y) (a.view d) (b.view d)).take m) ∧
      ((List.zipWith (fun x y => x ^^^ y) (a.view d) (b.view d)).take m).length
        ≤ min (a.view d).length (b.view d).length) ∧
    com_biguint_xor fresh d (Operand.other [0b1010]) (Operand.other [0b1100])
      = Except.ok [0b0110] := by
  constructor
  · have hlen : (List.zipWith (fun x y => x ^^^ y) (a.view d) (b.view d)).length
        = min (a.view d).length (b.view d).length := List.length_zipWith _ _ _
    obtain ⟨m, hm, h1, h2, h3⟩ :=
      trim_zeros_cut fresh (List.zipWith (fun x y => x ^^^ y) (a.view d) (b.view d))
    rw [hlen] at hm h1 h2
    refine ⟨m, hm, ?_, h2, h3, ?_⟩
    · rw [com_biguint_xor_eq, h1]
    · rw [List.length_take, hlen]
      omega
  · rw [com_biguint_xor_eq]
    rfl

/-! ## The addition helper runs to completion -/

theorem scanOut_length {ε σ : Type} (step : ε → σ → Nat × σ) : ∀ (xs : List ε) (c : σ),
    (scanOut step xs c).length = xs.length := by
  intro xs
  induction xs with
  | nil => intro c; rfl
  | cons x xs ih => intro c; simp only [scanOut, List.length_cons, ih]

/-- For operands of which `b` is no longer than `a`, either of which may be the destination,
`internal_value_add_u32_arr` returns, and returns the words `add_words`. -/
theorem internal_value_add_u32_arr_eq (fresh : Nat → Nat) (d : List Nat) (a b : Operand)
    (h : (b.view d).length ≤ (a.view d).length) :
    internal_value_add_u32_arr fresh d a (a.view d).length b (b.view d).length
      = Except.ok (add_words (a.view d) (b.view d)) := by
  unfold internal_value_add_u32_arr
  have hzl : (List.zip (a.view d) (b.view d)).length = (b.view d).length := by
    rw [List.length_zip]; omega
  have h1 := loopUp_scan_inv add_step_both
    (fun i (s : List Nat × Nat) =>
      rd a s.1 i >>= fun aval => rd b s.1 i >>= fun bval =>
      let tmp := to_u64 (aval + bval + s.2)
      if tmp > u32_max_m then
        wr s.1 i (to_u32 (tmp - u32_max_m)) >>= fun dest_arr => pure (dest_arr, 1)
      else
        wr s.1 i (to_u32 tmp) >>= fun dest_arr => pure (dest_arr, 0))
    (List.zip (a.view d) (b.view d)) 0 (com_vec_set_len fresh d (a.view d).length) 0
    (by rw [hzl, com_vec_set_len_length]; omega)
    (fun k hk e s he _ => by
      rw [hzl] at hk
      rw [Nat.zero_add] at he
      beta_reduce
      rw [Nat.zero_add, rd_after_set_len fresh a d e _ k (by omega) (by omega) he, bind_ok,
        rd_after_set_len fresh b d e _ k (by omega) (by omega) he, bind_ok]
      simp only [List.getElem_zip, add_step_both]
      split <;> rfl)
  rw [hzl] at h1
  have ho1 : (scanOut add_step_both (List.zip (a.view d) (b.view d)) 0).length
      = (b.view d).length := by rw [scanOut_length, hzl]
  have hx : ((a.view d).drop (b.view d).length).length
      = (a.view d).length - (b.view d).length := List.length_drop _ _
  have h2 := loopUp_scan_inv add_step_carry
    (fun i (s : List Nat × Nat) =>
      rd a s.1 i >>= fun aval =>
      let tmp := to_u32 (aval + s.2)
      if tmp > u32_max_m then
        wr s.1 i (to_u32 (tmp - u32_max_m)) >>= fun dest_arr => pure (dest_arr, 1)
      else
        wr s.1 i (to_u32 tmp) >>= fun dest_arr => pure (dest_arr, 0))
    ((a.view d).drop (b.view d).length) (b.view d).length
    (scanOut add_step_both (List.zip (a.view d) (b.view d)) 0
      ++ (com_vec_set_len fresh d (a.view d).length).drop (b.view d).length)
    (scanEnd add_step_both (List.zip (a.view d) (b.view d)) 0)
    (by simp only [List.length_append, List.length_drop, com_vec_set_len_length, ho1]; omega)
    (fun k hk e s he _ => by
      rw [hx] at hk
      beta_reduce
      rw [rd_after_set_len fresh a d e (a.view d).length ((b.view d).length + k) (by omega)
        (by omega) (by
          rw [he, List.getElem?_append_right (by rw [ho1]; omega), ho1, List.getElem?_drop]
          congr 1
          omega), bind_ok]
      simp only [List.getElem_drop, add_step_carry]
      split <;> rfl)
  rw [hx] at h2
  rw [decide_eq_true h, com_assert_m_true, bind_ok]
  dsimp only
  rw [List.take_zero, List.nil_append, Nat.zero_add] at h1
  rw [h1, bind_ok, h2, bind_ok]
  have hd : List.drop ((b.view d).length + ((a.view d).length - (b.view d).length))
      (scanOut add_step_both (List.zip (a.view d) (b.view d)) 0
        ++ (com_vec_set_len fresh d (a.view d).length).drop (b.view d).length) = [] :=
    List.drop_of_length_le (by
      rw [List.length_append, List.length_drop, com_vec_set_len_length, ho1])
  rw [List.take_left' ho1, hd, List.append_nil]
  unfold add_words
  dsimp only
  split <;> rfl

theorem cmp_loop_total (a b : List Nat) : ∀ n : Nat, n ≤ a.length → n ≤ b.length →
    ∃ c, cmp_loop a b n = Except.ok c := by
  intro n
  induction n with
  | zero => intro _ _; exact ⟨_, rfl⟩
  | succ n ih =>
    intro ha hb
    unfold cmp_loop
    rw [rdl_of_lt a n (by omega), bind_ok, rdl_of_lt b n (by omega), bind_ok]
    by_cases h1 : a[n] < b[n]
    · rw [if_pos h1]; exact ⟨_, rfl⟩
    · rw [if_neg h1]
      by_cases h2 : a[n] > b[n]
      · rw [if_pos h2]; exact ⟨_, rfl⟩
      · rw [if_neg h2]; exact ih (by omega) (by omega)

/-- The comparison returns for all word sequences, and an answer other than GREATER means
that `b` has no more words than `a`. -/
theorem com_biguint_cmp_total (a b : List Nat) :
    ∃ c, com_biguint_cmp a b = Except.ok c ∧
      (c ≠ com_math_GREATER → b.length ≤ a.length) ∧
      (c ≠ com_math_LESS → a.length ≤ b.length) := by
  unfold com_biguint_cmp internal_value_cmp_u32_arr
  by_cases h1 : b.length > a.length
  · rw [if_pos h1]
    exact ⟨_, rfl, fun h => absurd rfl h, fun _ => by omega⟩
  · rw [if_neg h1]
    by_cases h2 : b.length < a.length
    · rw [if_pos h2]
      exact ⟨_, rfl, fun _ => by omega, fun h => absurd rfl h⟩
    · rw [if_neg h2]
      obtain ⟨c, hc⟩ := cmp_loop_total a b a.length (le_refl _) (by omega)
      exact ⟨c, hc, fun _ => by omega, fun _ => by omega⟩

/-- What `com_biguint_sub` does, given the answer of its comparison. -/
theorem com_biguint_sub_of_cmp (fresh : Nat → Nat) (d : List Nat) (a b : Operand)
    (c : com_math_cmptype) (hc : com_biguint_cmp (a.view d) (b.view d) = Except.ok c) :
    (c = com_math_GREATER → com_biguint_sub fresh d a b = Except.error Fault.assertion) ∧
    (c ≠ com_math_GREATER →
      com_biguint_sub fresh d a b = Except.ok (add_words (a.view d) (b.view d))) := by
  obtain ⟨c', hc', hlen, _⟩ := com_biguint_cmp_total (a.view d) (b.view d)
  rw [hc] at hc'
  have hcc : c = c' := by injection hc'
  subst hcc
  constructor
  · intro hg
    unfold com_biguint_sub
    rw [hc, bind_ok, hg]
    rfl
  · intro hg
    unfold com_biguint_sub
    rw [hc, bind_ok, decide_eq_true hg, com_assert_m_true, bind_ok]
    exact internal_value_add_u32_arr_eq fresh d a b (hlen hg)

/-- C22: for all normalized a and b (either may be the destination itself),
`com_biguint_sub` ends in a fatal assertion exactly when value b > value a, and when
value a ≥ value b it completes. -/
theorem com_biguint_sub_asserts_iff (fresh : Nat → Nat) (d : List Nat) (a b : Operand)
    (wa : wellFormed (a.view d)) (wb : wellFormed (b.view d))
    (na : normalized (a.view d)) (nb : normalized (b.view d)) :
    (com_biguint_sub fresh d a b = Except.error Fault.assertion
      ↔ value (b.view d) > value (a.view d)) ∧
    (value (a.view d) ≥ value (b.view d) → ∃ r, com_biguint_sub fresh d a b = Except.ok r) := by
  rcases com_biguint_cmp_cases (a.view d) (b.view d) wa wb na nb with h | h | h
  · have hs := (com_biguint_sub_of_cmp fresh d a b _ h.1).1 rfl
    exact ⟨⟨fun _ => h.2, fun _ => hs⟩, fun hge => absurd h.2 (by omega)⟩
  · have hs := (com_biguint_sub_of_cmp fresh d a b _ h.1).2 (by decide)
    refine ⟨⟨fun e => ?_, fun hgt => absurd h.2 (by omega)⟩, fun _ => ⟨_, hs⟩⟩
    rw [hs] at e
    cases e
  · have hs := (com_biguint_sub_of_cmp fresh d a b _ h.1).2 (by decide)
    refine ⟨⟨fun e => ?_, fun hgt => absurd h.2 (by omega)⟩, fun _ => ⟨_, hs⟩⟩
    rw [hs] at e
    cases e

/-- C22, at a = [3] and b = [5], where the subtraction fails, and at a = [5] held by the
destination and b = [3], where it completes. -/
theorem com_biguint_sub_asserts_iff_witness :
    ((wellFormed ((Operand.other [3]).view [1]) ∧ wellFormed ((Operand.other [5]).view [1]) ∧
        normalized ((Operand.other [3]).view [1]) ∧ normalized ((Operand.other [5]).view [1])) ∧
      com_biguint_sub noFresh [1] (Operand.other [3]) (Operand.other [5])
        = Except.error Fault.assertion) ∧
    ((wellFormed (Operand.dest.view [5]) ∧ wellFormed ((Operand.other [3]).view [5]) ∧
        normalized (Operand.dest.view [5]) ∧ normalized ((Operand.other [3]).view [5])) ∧
      ∃ r, com_biguint_sub noFresh [5] Operand.dest (Operand.other [3]) = Except.ok r) :=
  ⟨⟨by decide,
    (com_biguint_sub_asserts_iff noFresh [1] (Operand.other [3]) (Operand.other [5])
      (by decide) (by decide) (by decide) (by decide)).1.mpr (by decide)⟩,
   ⟨by decide,
    (com_biguint_sub_asserts_iff noFresh [5] Operand.dest (Operand.other [3])
      (by decide) (by decide) (by decide) (by decide)).2 (by decide)⟩⟩

/-! ## Loops in place: downwards, and upwards reading ahead -/

theorem getElem?_set_of_ne (d : List Nat) (i j v : Nat) (h : i ≠ j) :
    (d.set i v)[j]? = d[j]? := List.getElem?_set_ne h

/-- A downward loop whose step at index `i` writes `g i`, having read only words at indices up
to `i`, leaves word 0 as it was and writes `g 1 .. g n`. -/
theorem loopDown_map_inv (g : Nat → Nat) (body : Nat → List Nat → Run (List Nat)) :
    ∀ (n : Nat) (d : List Nat), n < d.length →
      (∀ (i : Nat), 1 ≤ i → i ≤ n → ∀ (e : List Nat), e.length = d.length →
        (∀ j, j ≤ i → e[j]? = d[j]?) → body i e = wr e i (g i)) →
      loopDown body n d
        = Except.ok (d.take 1 ++ (List.range n).map (fun k => g (k + 1)) ++ d.drop (n + 1)) := by
  intro n
  induction n with
  | zero =>
    intro d _ _
    have h : d.take 1 ++ (List.range 0).map (fun k => g (k + 1)) ++ d.drop (0 + 1) = d := by
      rw [List.range_zero, List.map_nil, List.append_nil, List.take_append_drop]
    rw [h]
    rfl
  | succ n ih =>
    intro d hlen hbody
    have h0 := hbody (n + 1) (by omega) (le_refl _) d rfl (fun _ _ => rfl)
    simp only [loopDown]
    rw [h0, wr_of_lt d (n + 1) _ hlen, bind_ok,
      ih (d.set (n + 1) (g (n + 1))) (by rw [List.length_set]; omega)
        (fun i hi1 hi2 e he hag =>
          hbody i hi1 (by omega) e (by rw [he, List.length_set])
            (fun j hj => by rw [hag j hj, getElem?_set_of_ne d (n + 1) j _ (by omega)]))]
    congr 1
    have h1 : (d.set (n + 1) (g (n + 1))).take 1 = d.take 1 := by
      rw [List.set_take, List.set_eq_of_length_le (by simp)]
    have h2 : (d.set (n + 1) (g (n + 1))).drop (n + 1) = g (n + 1) :: d.drop (n + 1 + 1) := by
      rw [List.drop_set, if_neg (by omega), Nat.sub_self,
        List.drop_eq_getElem_cons hlen, List.set_cons_zero]
    rw [h1, h2, List.range_succ, List.map_append]
    simp

/-- An upward loop whose step at index `k` writes a word computed from the `k`-th element of
`xs`, having read only words at indices from `k` on, writes the image of `xs`. -/
theorem loopUp_map_ahead {ε : Type} (f : ε → Nat) (body : Nat → List Nat → Run (List Nat)) :
    ∀ (xs : List ε) (lo : Nat) (d : List Nat),
      lo + xs.length ≤ d.length →
      (∀ (k : Nat) (hk : k < xs.length) (e : List Nat),
        (∀ j, lo + k ≤ j → e[j]? = d[j]?) → e.length = d.length →
        body (lo + k) e = wr e (lo + k) (f xs[k])) →
      loopUp body xs.length lo d
        = Except.ok (d.take lo ++ xs.map f ++ d.drop (lo + xs.length)) := by
  intro xs
  induction xs with
  | nil =>
    intro lo d _ _
    simp [loopUp]
    rfl
  | cons x xs ih =>
    intro lo d hlen hbody
    simp only [List.length_cons] at hlen
    have h0 := hbody 0 (by simp) d (fun _ _ => rfl) rfl
    simp only [Nat.add_zero, List.getElem_cons_zero] at h0
    simp only [List.length_cons, loopUp]
    rw [h0, wr_of_lt d lo _ (by omega)]
    simp only [bind_ok]
    rw [ih (lo + 1) (d.set lo (f x)) (by rw [List.length_set]; omega)
      (fun k hk e he hl => by
        have := hbody (k + 1) (by simp; omega) e
          (fun j hj => by rw [he j (by omega), getElem?_set_of_ne d lo j _ (by omega)])
          (by rw [hl, List.length_set])
        simp only [List.getElem_cons_succ] at this
        rw [show lo + 1 + k = lo + (k + 1) by omega]
        exact this)]
    simp only [List.map_cons]
    rw [set_take_drop d lo _ _ xs.length hlen]

/-! ## The left shift in place -/

theorem range_map_shl_words (r : Nat) : ∀ (xs : List Nat) (p : Nat),
    (List.range xs.length).map (fun k => shl_word r (xs.getD k 0) ((p :: xs).getD k 0))
      = shl_words r p xs := by
  intro xs
  induction xs with
  | nil => intro p; rfl
  | cons x xs ih =>
    intro p
    rw [List.length_cons, List.range_succ_eq_map, List.map_cons, List.map_map]
    simp only [shl_words]
    congr 1
    exact ih x

theorem pure_eq_ok {α : Type} (x : α) : (pure x : Run α) = Except.ok x := rfl

theorem com_vec_set_len_self (fresh : Nat → Nat) (d : List Nat) :
    com_vec_set_len fresh d d.length = d := by
  rw [com_vec_set_len_of_le fresh d _ (le_refl _), List.take_length]

theorem rdl_getD (e : List Nat) (i : Nat) (v : Nat) (h : e[i]? = some v) :
    rdl e i = Except.ok v := by
  unfold rdl
  rw [h]
  rfl

theorem getElem?_getD (d : List Nat) (i : Nat) (h : i < d.length) :
    d[i]? = some (d.getD i 0) := by
  rw [List.getD_eq_getElem?_getD, List.getElem?_eq_getElem h]
  rfl

/-- The left shift by `r` bits, `1 ≤ r ≤ 31`, of a nonzero value in place. -/
theorem com_biguint_lshift_in_place (fresh : Nat → Nat) (x0 : Nat) (rest : List Nat) (r : Nat)
    (h1 : 1 ≤ r) (h2 : r < 32) :
    com_biguint_lshift fresh (x0 :: rest) Operand.dest r
      = Except.ok (to_u32 (x0 <<< r) :: shl_words r x0 rest
          ++ (if to_u32 (to_u64 ((x0 :: rest).getD rest.length 0 <<< r) >>> 32) ≠ 0
              then [to_u32 (to_u64 ((x0 :: rest).getD rest.length 0 <<< r) >>> 32)]
              else [])) := by
  unfold com_biguint_lshift
  have hw : r / 32 = 0 := Nat.div_eq_of_lt h2
  have hr : r % 32 = r := Nat.mod_eq_of_lt h2
  simp only [Operand.view, List.length_cons, hw, hr, Nat.add_zero]
  rw [if_neg (by omega), show rest.length + 1 = (x0 :: rest).length from rfl,
    com_vec_set_len_self, List.length_cons, Nat.add_sub_cancel]
  have htop : rd Operand.dest (x0 :: rest) rest.length
      = Except.ok ((x0 :: rest).getD rest.length 0) :=
    rdl_getD (x0 :: rest) rest.length _
      (getElem?_getD (x0 :: rest) rest.length (by rw [List.length_cons]; omega))
  rw [htop, bind_ok]
  generalize hov : to_u32 (to_u64 ((x0 :: rest).getD rest.length 0 <<< r) >>> 32) = ov
  have hD : (if ov ≠ 0 then com_vec_push (x0 :: rest) ov else x0 :: rest)
      = x0 :: rest ++ (if ov ≠ 0 then [ov] else []) := by
    split
    · rfl
    · simp
  rw [hD]
  have hloop := loopDown_map_inv
    (fun i => shl_word r ((x0 :: rest).getD i 0) ((x0 :: rest).getD (i - 1) 0))
    (fun i dest_arr =>
        rd Operand.dest dest_arr i >>= fun x => shl32 x r >>= fun hi =>
        rd Operand.dest dest_arr (i - 1) >>= fun y => shr32 y (32 - r) >>= fun lo =>
        wr dest_arr i (hi ||| lo))
    rest.length (x0 :: rest ++ (if ov ≠ 0 then [ov] else []))
    (by rw [List.length_append, List.length_cons]; omega)
    (fun i hi1 hi2 e _ hag => by
      have e1 : e[i]? = some ((x0 :: rest).getD i 0) := by
        rw [hag i (le_refl _), List.getElem?_append_left (by simp; omega)]
        exact getElem?_getD _ _ (by simp; omega)
      have e2 : e[i - 1]? = some ((x0 :: rest).getD (i - 1) 0) := by
        rw [hag (i - 1) (by omega), List.getElem?_append_left (by simp; omega)]
        exact getElem?_getD _ _ (by simp; omega)
      beta_reduce
      unfold rd shl32 shr32 shl_word
      simp only [Operand.view, rdl_getD e i _ e1, rdl_getD e (i - 1) _ e2, if_pos h2,
        if_pos (show 32 - r < 32 by omega), pure_eq_ok, bind_ok])
  rw [hloop, bind_ok]
  have hmap : (List.range rest.length).map
      (fun k => shl_word r ((x0 :: rest).getD (k + 1) 0) ((x0 :: rest).getD (k + 1 - 1) 0))
      = shl_words r x0 rest := by
    rw [← range_map_shl_words r rest x0]
    rfl
  rw [hmap]
  have hE : (x0 :: rest ++ (if ov ≠ 0 then [ov] else [])).take 1 ++ shl_words r x0 rest
      ++ (x0 :: rest ++ (if ov ≠ 0 then [ov] else [])).drop (rest.length + 1)
      = x0 :: (shl_words r x0 rest ++ (if ov ≠ 0 then [ov] else [])) := by
    simp
  rw [hE]
  unfold shl32 com_mem_zero_arr_m
  rw [rdl_getD _ 0 x0 (by simp), bind_ok, if_pos h2, pure_eq_ok, bind_ok,
    wr_of_lt _ 0 _ (by simp), bind_ok, if_pos (Nat.zero_le _)]
  simp [pure_eq_ok]

/-! ## The left shift as a multiplication by a power of two -/

/-- The arithmetic of one word of a left shift by `r` bits: with `c < 2^r` coming in from
below, the word written is the low half of `x * 2^r + c` and the bits going out are its high
half. -/
theorem shl_arith (r x c : Nat) (h1 : 1 ≤ r) (h2 : r < 32) (hx : x < 2 ^ 32) (hc : c < 2 ^ r) :
    to_u32 (x <<< r) ||| c = (x * 2 ^ r + c) % 2 ^ 32 ∧
    (x * 2 ^ r + c) / 2 ^ 32 = x >>> (32 - r) ∧
    x >>> (32 - r) < 2 ^ r := by
  have hAB : 2 ^ r * 2 ^ (32 - r) = 2 ^ 32 := by
    rw [← pow_add]
    congr 1
    omega
  have hBpos : 0 < 2 ^ (32 - r) := Nat.two_pow_pos _
  have hApos : 0 < 2 ^ r := Nat.two_pow_pos _
  have hq : x / 2 ^ (32 - r) < 2 ^ r :=
    Nat.div_lt_of_lt_mul (by rw [Nat.mul_comm, hAB]; exact hx)
  have hm : x % 2 ^ (32 - r) < 2 ^ (32 - r) := Nat.mod_lt _ hBpos
  have hsplit : x * 2 ^ r
      = 2 ^ 32 * (x / 2 ^ (32 - r)) + 2 ^ r * (x % 2 ^ (32 - r)) := by
    conv_lhs => rw [← Nat.div_add_mod x (2 ^ (32 - r))]
    rw [← hAB]
    ring
  have hlow : 2 ^ r * (x % 2 ^ (32 - r)) + c < 2 ^ 32 := by
    have : 2 ^ r * (x % 2 ^ (32 - r) + 1) ≤ 2 ^ r * 2 ^ (32 - r) := Nat.mul_le_mul_left _ hm
    rw [Nat.mul_add, Nat.mul_one, hAB] at this
    omega
  have hlow' : 2 ^ r * (x % 2 ^ (32 - r)) < 2 ^ 32 := by omega
  refine ⟨?_, ?_, ?_⟩
  · unfold to_u32
    rw [Nat.shiftLeft_eq, hsplit, Nat.mul_add_mod, Nat.mod_eq_of_lt hlow', Nat.add_assoc,
      Nat.mul_add_mod, Nat.mod_eq_of_lt hlow]
    exact (Nat.mul_add_lt_is_or hc _).symm
  · rw [hsplit, Nat.add_assoc, Nat.mul_add_div (by norm_num), Nat.div_eq_of_lt hlow,
      Nat.add_zero, Nat.shiftRight_eq_div_pow]
  · rw [Nat.shiftRight_eq_div_pow]
    exact hq

theorem shr_lt_two_pow (r p : Nat) (h1 : 1 ≤ r) (h2 : r < 32) (hp : p < 2 ^ 32) :
    p >>> (32 - r) < 2 ^ r := by
  have := (shl_arith r p 0 h1 h2 hp (Nat.two_pow_pos _)).2.2
  exact this

/-- The words of a left shift by `r` bits, with the bits shifted out of the top word when
there are any, are the words of the product with `2^r`. -/
theorem shl_words_eq_mul_words (r : Nat) (h1 : 1 ≤ r) (h2 : r < 32) :
    ∀ (xs : List Nat) (p : Nat), wellFormed xs → p < 2 ^ 32 →
      shl_words r p xs
        ++ (if (p :: xs).getD xs.length 0 >>> (32 - r) ≠ 0
            then [(p :: xs).getD xs.length 0 >>> (32 - r)] else [])
        = mul_words (2 ^ r) xs (p >>> (32 - r)) := by
  intro xs
  induction xs with
  | nil =>
    intro p _ _
    rfl
  | cons x xs ih =>
    intro p wx hp
    rw [wellFormed_cons] at wx
    obtain ⟨e1, e2, _⟩ := shl_arith r x (p >>> (32 - r)) h1 h2 wx.1 (shr_lt_two_pow r p h1 h2 hp)
    have := ih x wx.2 wx.1
    simp only [shl_words, mul_words, shl_word, List.cons_append, List.length_cons,
      List.getD_cons_succ] at this ⊢
    rw [e1, e2, ← this]

theorem wellFormed_mul_words (b : Nat) (hb : b < 2 ^ 32) : ∀ (a : List Nat) (c : Nat),
    wellFormed a → c < 2 ^ 32 → wellFormed (mul_words b a c) := by
  intro a
  induction a with
  | nil =>
    intro c _ hc
    unfold mul_words
    split
    · intro w hw
      simp only [List.mem_singleton] at hw
      rw [hw]
      exact hc
    · intro w hw
      cases hw
  | cons x xs ih =>
    intro c wa hc
    rw [wellFormed_cons] at wa
    unfold mul_words
    rw [wellFormed_cons]
    have hlt := mul_step_bound x b c wa.1 hb hc
    exact ⟨Nat.mod_lt _ (by norm_num), ih _ wa.2 (by omega)⟩

theorem mul_words_eq_nil (b : Nat) (a : List Nat) (c : Nat) (h : mul_words b a c = []) :
    a = [] ∧ c = 0 := by
  cases a with
  | nil =>
    unfold mul_words at h
    by_cases hc : c ≠ 0
    · rw [if_pos hc] at h
      cases h
    · exact ⟨rfl, by omega⟩
  | cons x xs =>
    unfold mul_words at h
    cases h

theorem normalized_mul_words (b : Nat) (hb : 0 < b) : ∀ (a : List Nat) (c : Nat),
    normalized a → normalized (mul_words b a c) := by
  intro a
  induction a with
  | nil =>
    intro c _
    unfold mul_words
    by_cases hc : c ≠ 0
    · rw [if_pos hc]
      unfold normalized
      simp only [List.getLast?_singleton, ne_eq, Option.some.injEq]
      exact hc
    · rw [if_neg hc]
      unfold normalized
      simp
  | cons x xs ih =>
    intro c na
    rw [normalized_cons] at na
    unfold mul_words
    rw [normalized_cons]
    refine ⟨?_, ih _ na.2⟩
    intro hnil
    obtain ⟨hxs, hc0⟩ := mul_words_eq_nil _ _ _ hnil
    have hx : x ≠ 0 := na.1 hxs
    have hpos : 0 < x * b := Nat.mul_pos (Nat.pos_of_ne_zero hx) hb
    have hlt : x * b + c < 2 ^ 32 := by
      by_contra hge
      have : 0 < (x * b + c) / 2 ^ 32 := Nat.div_pos (by omega) (by norm_num)
      omega
    rw [Nat.mod_eq_of_lt hlt]
    omega

/-- In place, the left shift by `r` bits, `1 ≤ r ≤ 31`, of a nonzero value of 32-bit words
leaves the words of the product with `2^r`. -/
theorem com_biguint_lshift_in_place_eq (fresh : Nat → Nat) (d : List Nat) (r : Nat)
    (h1 : 1 ≤ r) (h2 : r < 32) (wd : wellFormed d) (hd : d ≠ []) :
    com_biguint_lshift fresh d Operand.dest r = Except.ok (mul_words (2 ^ r) d 0) := by
  cases d with
  | nil => exact absurd rfl hd
  | cons x0 rest =>
    rw [com_biguint_lshift_in_place fresh x0 rest r h1 h2]
    have hw := wd
    rw [wellFormed_cons] at hw
    have htop : (x0 :: rest).getD rest.length 0 < 2 ^ 32 := by
      have hmem : (x0 :: rest).getD rest.length 0 ∈ (x0 :: rest) := by
        rw [List.getD_eq_getElem _ _ (by simp)]
        exact List.getElem_mem _
      exact wd _ hmem
    have hov : to_u32 (to_u64 ((x0 :: rest).getD rest.length 0 <<< r) >>> 32)
        = (x0 :: rest).getD rest.length 0 >>> (32 - r) := by
      obtain ⟨_, e2, e3⟩ := shl_arith r _ 0 h1 h2 htop (Nat.two_pow_pos _)
      have hlt : (x0 :: rest).getD rest.length 0 <<< r < 2 ^ 64 := by
        rw [Nat.shiftLeft_eq]
        have : (x0 :: rest).getD rest.length 0 * 2 ^ r < 2 ^ 32 * 2 ^ 32 :=
          Nat.mul_lt_mul'' htop (Nat.pow_lt_pow_right (by norm_num) h2)
        calc _ < 2 ^ 32 * 2 ^ 32 := this
          _ = 2 ^ 64 := by norm_num
      unfold to_u64 to_u32
      rw [Nat.mod_eq_of_lt hlt, Nat.shiftRight_eq_div_pow, Nat.shiftLeft_eq, ← e2, Nat.add_zero]
      apply Nat.mod_eq_of_lt
      rw [Nat.add_zero] at e2
      rw [e2]
      calc _ < 2 ^ r := e3
        _ < 2 ^ 32 := Nat.pow_lt_pow_right (by norm_num) h2
    rw [hov]
    have key := shl_words_eq_mul_words r h1 h2 (x0 :: rest) 0 wd (by norm_num)
    simp only [shl_words, shl_word, List.length_cons, List.getD_cons_succ, Nat.zero_shiftRight,
      Nat.or_zero, List.cons_append] at key
    rw [← key]
    rfl

/-- C29: for every normalized nonzero x of 32-bit words and every bit count r with
1 ≤ r ≤ 31, `com_biguint_lshift` called in place leaves x holding a normalized sequence of
32-bit words whose value is 2^r times the previous value. -/
theorem com_biguint_lshift_in_place_spec (fresh : Nat → Nat) (x : List Nat) (r : Nat)
    (h1 : 1 ≤ r) (h2 : r ≤ 31) (wx : wellFormed x) (nx : normalized x) (hx : x ≠ []) :
    ∃ y, com_biguint_lshift fresh x Operand.dest r = Except.ok y ∧
      value y = 2 ^ r * value x ∧ normalized y ∧ wellFormed y := by
  refine ⟨mul_words (2 ^ r) x 0,
    com_biguint_lshift_in_place_eq fresh x r h1 (by omega) wx hx, ?_,
    normalized_mul_words _ (Nat.two_pow_pos _) x 0 nx,
    wellFormed_mul_words _ (Nat.pow_lt_pow_right (by norm_num) (by omega)) x 0 wx
      (by norm_num)⟩
  rw [value_mul_words, Nat.add_zero, Nat.mul_comm]

/-- C29, at x = [1, 4294967295] and r = 31. -/
theorem com_biguint_lshift_in_place_spec_witness :
    (1 ≤ 31 ∧ 31 ≤ 31 ∧ wellFormed [1, 4294967295] ∧ normalized [1, 4294967295] ∧
      [1, 4294967295] ≠ ([] : List Nat)) ∧
    ∃ y, com_biguint_lshift noFresh [1, 4294967295] Operand.dest 31 = Except.ok y ∧
      value y = 2 ^ 31 * value [1, 4294967295] ∧ normalized y ∧ wellFormed y :=
  ⟨by decide,
   com_biguint_lshift_in_place_spec noFresh [1, 4294967295] 31 (by decide) (by decide)
     (by decide) (by decide) (by decide)⟩

/-! ## The right shift by one bit in place -/

theorem zipWith_tail_shr_words (r : Nat) : ∀ (x : Nat) (xs : List Nat),
    List.zipWith (shr_word r) (x :: xs) xs
      ++ (if (x :: xs).getD xs.length 0 >>> r ≠ 0 then [(x :: xs).getD xs.length 0 >>> r]
          else [])
      = shr_words r (x :: xs) := by
  intro x xs
  induction xs generalizing x with
  | nil => rfl
  | cons y rest ih =>
    have := ih y
    simp only [List.zipWith_cons_cons, shr_words, List.cons_append, List.length_cons,
      List.getD_cons_succ] at this ⊢
    rw [this]

theorem usize_sub_of_le (x y : Nat) (h : y ≤ x) (hx : x < 2 ^ 64) : usize_sub x y = x - y := by
  unfold usize_sub
  rw [show x + 2 ^ 64 - y = (x - y) + 2 ^ 64 by omega, Nat.add_mod_right,
    Nat.mod_eq_of_lt (by omega)]

/-- The right shift by one bit of a nonzero value in place. -/
theorem com_biguint_rshift_in_place (fresh : Nat → Nat) (x0 : Nat) (rest : List Nat)
    (hlen : rest.length + 1 < 2 ^ 64) :
    com_biguint_rshift fresh (x0 :: rest) Operand.dest 1
      = Except.ok (shr_words 1 (x0 :: rest)) := by
  unfold com_biguint_rshift
  simp only [Operand.view, List.length_cons, show (1 : Nat) / 32 = 0 from rfl,
    show (1 : Nat) % 32 = 1 from rfl, show (32 : Nat) - 1 = 31 from rfl]
  rw [if_neg (by omega), show rest.length + 1 = (x0 :: rest).length from rfl,
    com_vec_set_len_self, List.length_cons, usize_sub_of_le _ 1 (by omega) hlen,
    usize_sub_of_le _ 0 (by omega) hlen, usize_sub_of_le _ 1 (by omega) (by omega),
    Nat.add_sub_cancel, Nat.sub_zero]
  have hzl : (List.zip (x0 :: rest) rest).length = rest.length := by
    rw [List.length_zip, List.length_cons]; omega
  have hloop := loopUp_map_ahead (fun p : Nat × Nat => shr_word 1 p.1 p.2)
    (fun i dest_arr =>
        rd Operand.dest dest_arr i >>= fun x => shr32 x 1 >>= fun lo =>
        rd Operand.dest dest_arr (i + 1) >>= fun y => shl32 y 31 >>= fun hi =>
        wr dest_arr (i - 0) (lo ||| hi))
    (List.zip (x0 :: rest) rest) 0 (x0 :: rest)
    (by rw [hzl, List.length_cons]; omega)
    (fun k hk e hag _ => by
      rw [hzl] at hk
      have hk1 : k < (x0 :: rest).length := by rw [List.length_cons]; omega
      have e1 : e[k]? = some ((x0 :: rest)[k]) := by
        rw [hag k (by omega), List.getElem?_eq_getElem]
      have e2 : e[k + 1]? = some (rest[k]) := by
        rw [hag (k + 1) (by omega), List.getElem?_cons_succ, List.getElem?_eq_getElem]
      beta_reduce
      unfold rd shr32 shl32 shr_word
      simp only [Operand.view, Nat.zero_add, Nat.sub_zero, rdl_getD e k _ e1,
        rdl_getD e (k + 1) _ e2, show (1 : Nat) < 32 by norm_num,
        show (31 : Nat) < 32 by norm_num, if_true, pure_eq_ok, bind_ok, List.getElem_zip])
  rw [hzl] at hloop
  rw [hloop, bind_ok, List.zip_eq_zipWith, List.map_zipWith]
  simp only [List.take_zero, List.nil_append, Nat.zero_add]
  have hE : ∀ (Z : List Nat), Z.length = rest.length →
      (Z ++ (x0 :: rest).drop rest.length)
        = Z ++ [(x0 :: rest).getD rest.length 0] := by
    intro Z _
    congr 1
    rw [List.drop_eq_getElem_cons (by rw [List.length_cons]; omega),
      List.drop_of_length_le (by rw [List.length_cons]),
      List.getD_eq_getElem _ _ (by rw [List.length_cons]; omega)]
  have hZ : (List.zipWith (fun x y => shr_word 1 x y) (x0 :: rest) rest).length
      = rest.length := by
    rw [List.length_zipWith, List.length_cons]; omega
  rw [hE _ hZ, ← zipWith_tail_shr_words 1 x0 rest]
  generalize (x0 :: rest).getD rest.length 0 = top
  have hZ2 : (List.zipWith (shr_word 1) (x0 :: rest) rest).length = rest.length := hZ
  have hZe : List.zipWith (fun x y => shr_word 1 x y) (x0 :: rest) rest
      = List.zipWith (shr_word 1) (x0 :: rest) rest := rfl
  rw [hZe]
  generalize List.zipWith (shr_word 1) (x0 :: rest) rest = Z at hZ2
  have hrd : rd Operand.dest (Z ++ [top]) rest.length = Except.ok top := by
    unfold rd
    simp only [Operand.view]
    apply rdl_getD
    rw [List.getElem?_append_right (by rw [hZ2]), hZ2, Nat.sub_self]
    rfl
  unfold shr32
  rw [hrd, bind_ok, if_pos (by norm_num), pure_eq_ok, bind_ok,
    show rest.length + 1 - 0 - 1 = rest.length by omega,
    show rest.length + 1 - 0 = rest.length + 1 by omega]
  by_cases ht : top >>> 1 ≠ 0
  · rw [if_pos ht, if_pos ht,
      wr_of_lt _ _ _ (by rw [List.length_append, hZ2, List.length_singleton]; omega), bind_ok,
      pure_eq_ok]
    have hs : (Z ++ [top]).set rest.length (top >>> 1) = Z ++ [top >>> 1] := by
      rw [List.set_append_right _ _ (by rw [hZ2]), hZ2, Nat.sub_self]
      rfl
    have hl : (Z ++ [top >>> 1]).length = rest.length + 1 := by
      rw [List.length_append, hZ2, List.length_singleton]
    rw [hs, ← hl, com_vec_set_len_self]
  · rw [if_neg ht, if_neg ht, pure_eq_ok,
      com_vec_set_len_of_le _ _ _ (by rw [List.length_append, hZ2]; omega), List.append_nil,
      ← hZ2, List.take_left]

/-! ## The words of a right shift by one bit -/

theorem shr_word_one (x y : Nat) (hx : x < 2 ^ 32) :
    shr_word 1 x y = x / 2 + 2 ^ 31 * (y % 2) := by
  unfold shr_word to_u32
  rw [Nat.shiftRight_eq_div_pow, Nat.shiftLeft_eq, show (32 : Nat) - 1 = 31 from rfl,
    show (2 : Nat) ^ 32 = 2 * 2 ^ 31 from rfl, Nat.mul_mod_mul_right, Nat.pow_one,
    Nat.or_comm, Nat.mul_comm (y % 2) (2 ^ 31),
    ← Nat.mul_add_lt_is_or (show x / 2 < 2 ^ 31 by omega) (y % 2), Nat.add_comm]

theorem shr_words_cons_cons (r x y : Nat) (rest : List Nat) :
    shr_words r (x :: y :: rest) = shr_word r x y :: shr_words r (y :: rest) := rfl

theorem shr_words_singleton (r x : Nat) :
    shr_words r [x] = if x >>> r ≠ 0 then [x >>> r] else [] := rfl

theorem value_shr_words : ∀ (x : Nat) (xs : List Nat), wellFormed (x :: xs) →
    value (shr_words 1 (x :: xs)) = value (x :: xs) / 2 := by
  intro x xs
  induction xs generalizing x with
  | nil =>
    intro _
    rw [shr_words_singleton, Nat.shiftRight_eq_div_pow, Nat.pow_one, value_cons, value_nil]
    by_cases h : x / 2 ≠ 0
    · rw [if_pos h, value_cons, value_nil]
      omega
    · rw [if_neg h, value_nil]
      omega
  | cons y rest ih =>
    intro w
    rw [wellFormed_cons] at w
    have h := ih y w.2
    rw [shr_words_cons_cons, value_cons, h, shr_word_one x y w.1, value_cons x, value_cons y]
    generalize value rest = V
    omega

theorem wellFormed_shr_words : ∀ (x : Nat) (xs : List Nat), wellFormed (x :: xs) →
    wellFormed (shr_words 1 (x :: xs)) := by
  intro x xs
  induction xs generalizing x with
  | nil =>
    intro w
    rw [wellFormed_cons] at w
    rw [shr_words_singleton, Nat.shiftRight_eq_div_pow, Nat.pow_one]
    by_cases h : x / 2 ≠ 0
    · rw [if_pos h, wellFormed_cons]
      exact ⟨by omega, fun _ hv => by cases hv⟩
    · rw [if_neg h]
      exact fun _ hv => by cases hv
  | cons y rest ih =>
    intro w
    rw [wellFormed_cons] at w
    rw [shr_words_cons_cons, wellFormed_cons, shr_word_one x y w.1]
    exact ⟨by omega, ih y w.2⟩

theorem normalized_shr_words : ∀ (x : Nat) (xs : List Nat), wellFormed (x :: xs) →
    normalized (x :: xs) → normalized (shr_words 1 (x :: xs)) := by
  intro x xs
  induction xs generalizing x with
  | nil =>
    intro _ _
    rw [shr_words_singleton]
    by_cases h : x >>> 1 ≠ 0
    · rw [if_pos h, normalized_cons]
      exact ⟨fun _ => h, by unfold normalized; simp⟩
    · rw [if_neg h]
      unfold normalized
      simp
  | cons y rest ih =>
    intro w n
    rw [wellFormed_cons] at w
    rw [normalized_cons] at n
    rw [shr_words_cons_cons, normalized_cons]
    refine ⟨?_, ih y w.2 n.2⟩
    intro he
    rw [shr_word_one x y w.1]
    cases rest with
    | nil =>
      rw [shr_words_singleton, Nat.shiftRight_eq_div_pow, Nat.pow_one] at he
      have hy : y ≠ 0 := (normalized_cons y []).mp n.2 |>.1 rfl
      by_cases h : y / 2 ≠ 0
      · rw [if_pos h] at he
        cases he
      · omega
    | cons z zs =>
      rw [shr_words_cons_cons] at he
      cases he

theorem shr_words_length_le (r : Nat) : ∀ (xs : List Nat),
    (shr_words r xs).length ≤ xs.length := by
  intro xs
  induction xs with
  | nil => exact le_refl _
  | cons x rest ih =>
    cases rest with
    | nil =>
      rw [shr_words_singleton]
      split <;> simp
    | cons y zs =>
      rw [shr_words_cons_cons, List.length_cons, List.length_cons (a := x)]
      omega

/-- The right shift by one bit of a nonzero normalized value in place halves it. -/
theorem com_biguint_rshift_in_place_spec (fresh : Nat → Nat) (x : List Nat)
    (hx : x ≠ []) (hlen : x.length < 2 ^ 64) (wx : wellFormed x) (nx : normalized x) :
    ∃ y, com_biguint_rshift fresh x Operand.dest 1 = Except.ok y ∧
      value y = value x / 2 ∧ wellFormed y ∧ normalized y ∧ y.length ≤ x.length := by
  cases x with
  | nil => exact absurd rfl hx
  | cons x0 rest =>
    exact ⟨_, com_biguint_rshift_in_place fresh x0 rest (by rw [List.length_cons] at hlen; exact hlen),
      value_shr_words x0 rest wx, wellFormed_shr_words x0 rest wx,
      normalized_shr_words x0 rest wx nx, shr_words_length_le 1 _⟩

/-! ## Termination of the two loops of the division -/

theorem com_biguint_cmp_swap (a b : List Nat) :
    com_biguint_cmp a b = Except.ok com_math_GREATER →
      com_biguint_cmp b a = Except.ok com_math_LESS := by
  unfold com_biguint_cmp internal_value_cmp_u32_arr
  rcases Nat.lt_trichotomy a.length b.length with h | h | h
  · have h1 : ¬ a.length > b.length := by omega
    simp only [gt_iff_lt, h, h1, if_true, if_false]
    exact fun _ => rfl
  · have h1 : ¬ b.length < a.length := by omega
    have h2 : ¬ a.length < b.length := by omega
    simp only [gt_iff_lt, h1, h2, if_false]
    rw [← h]
    exact (cmp_loop_swap a b a.length).1
  · have h1 : ¬ a.length < b.length := by omega
    simp only [gt_iff_lt, h, h1, if_true, if_false]
    exact fun e => (by cases e)

theorem one_le_value (x : List Nat) (nx : normalized x) (hx : x ≠ []) : 1 ≤ value x :=
  le_trans (Nat.one_le_two_pow) (pow_le_value x nx hx)

theorem ne_nil_of_one_le_value (x : List Nat) (h : 1 ≤ value x) : x ≠ [] := by
  intro e
  rw [e, value_nil] at h
  omega

theorem length_le_of_value_le (x y : List Nat) (wy : wellFormed y) (nx : normalized x)
    (h : value x ≤ value y) : x.length ≤ y.length := by
  by_contra hc
  have := value_lt_of_length_lt y x wy nx (by omega)
  omega

theorem length_le_of_value_le_double (x a : List Nat) (wa : wellFormed a) (nx : normalized x)
    (h : value x ≤ 2 * value a) : x.length ≤ a.length + 1 := by
  by_cases hx : x = []
  · rw [hx]
    exact Nat.zero_le _
  · have h1 := pow_le_value x nx hx
    have h2 := value_lt_pow a wa
    have h3 : 2 ^ (32 * (x.length - 1)) < 2 ^ (32 * a.length + 1) := by
      rw [pow_succ]
      omega
    have h4 := (Nat.pow_lt_pow_iff_right (by norm_num : 1 < 2)).mp h3
    omega

/-- The doubling loop of the division returns when it has more fuel than the distance of
`denom` below `a`, and it keeps `current` and `denom` normalized and nonzero. -/
theorem div_double_total (fresh : Nat → Nat) (a : List Nat) (wa : wellFormed a)
    (na : normalized a) (ha : a.length + 1 < 2 ^ 64) :
    ∀ (fuel : Nat) (cur den : List Nat), value a + 1 - value den < fuel →
      wellFormed cur → normalized cur → wellFormed den → normalized den →
      1 ≤ value cur → value cur ≤ value den →
      (value cur ≤ 1 ∨ value cur ≤ 2 * value a) → den.length < 2 ^ 64 →
      ∃ cur1 den1, div_double fresh a fuel (cur, den) = Except.ok (cur1, den1) ∧
        wellFormed cur1 ∧ normalized cur1 ∧ wellFormed den1 ∧ normalized den1 ∧
        1 ≤ value cur1 ∧ value cur1 ≤ value den1 ∧
        (value cur1 ≤ 1 ∨ value cur1 ≤ 2 * value a) ∧ den1.length < 2 ^ 64 := by
  intro fuel
  induction fuel with
  | zero => intro cur den h; omega
  | succ fuel ih =>
    intro cur den hm wc nc wd nd h1 hcd hb hl
    unfold div_double
    have hstay : (pure (cur, den) : Run (List Nat × List Nat)) = Except.ok (cur, den) := rfl
    have hgo : value den ≤ value a →
        ∃ cur1 den1,
          (com_biguint_lshift fresh cur Operand.dest 1 >>= fun current =>
            com_biguint_lshift fresh den Operand.dest 1 >>= fun denom =>
            div_double fresh a fuel (current, denom)) = Except.ok (cur1, den1) ∧
          wellFormed cur1 ∧ normalized cur1 ∧ wellFormed den1 ∧ normalized den1 ∧
          1 ≤ value cur1 ∧ value cur1 ≤ value den1 ∧
          (value cur1 ≤ 1 ∨ value cur1 ≤ 2 * value a) ∧ den1.length < 2 ^ 64 := by
      intro hda
      have hcn : cur ≠ [] := ne_nil_of_one_le_value cur h1
      have hdn : den ≠ [] := ne_nil_of_one_le_value den (by omega)
      rw [com_biguint_lshift_in_place_eq fresh cur 1 (le_refl _) (by norm_num) wc hcn, bind_ok,
        com_biguint_lshift_in_place_eq fresh den 1 (le_refl _) (by norm_num) wd hdn, bind_ok]
      have vc : value (mul_words (2 ^ 1) cur 0) = 2 * value cur := by
        rw [value_mul_words]; omega
      have vd : value (mul_words (2 ^ 1) den 0) = 2 * value den := by
        rw [value_mul_words]; omega
      have nd2 : normalized (mul_words (2 ^ 1) den 0) :=
        normalized_mul_words _ (by norm_num) den 0 nd
      apply ih
      · rw [vd]; omega
      · exact wellFormed_mul_words _ (by norm_num) cur 0 wc (by norm_num)
      · exact normalized_mul_words _ (by norm_num) cur 0 nc
      · exact wellFormed_mul_words _ (by norm_num) den 0 wd (by norm_num)
      · exact nd2
      · rw [vc]; omega
      · rw [vc, vd]; omega
      · rw [vc]; omega
      · have := length_le_of_value_le_double _ a wa nd2 (by rw [vd]; omega)
        omega
    rcases com_biguint_cmp_cases a den wa wd na nd with ⟨hc, hv⟩ | ⟨hc, hv⟩ | ⟨hc, hv⟩
    · rw [hc, bind_ok, if_neg (by decide), hstay]
      exact ⟨cur, den, rfl, wc, nc, wd, nd, h1, hcd, hb, hl⟩
    · rw [hc, bind_ok, if_pos (by decide)]
      exact hgo (by omega)
    · rw [hc, bind_ok, if_pos (by decide)]
      exact hgo (by omega)

/-- The main loop of the division returns when it has more fuel than the value of
`current`, which is halved by every iteration. -/
theorem div_main_total (fresh : Nat → Nat) :
    ∀ (fuel : Nat) (s : DivState), value s.current < fuel →
      wellFormed s.current → normalized s.current → wellFormed s.denom → normalized s.denom →
      value s.current ≤ value s.denom →
      s.current.length < 2 ^ 64 → s.denom.length < 2 ^ 64 →
      ∃ s1, div_main fresh fuel s = Except.ok s1 := by
  intro fuel
  induction fuel with
  | zero => intro s h; omega
  | succ fuel ih =>
    intro s hm wc nc wd nd hcd hlc hld
    unfold div_main
    by_cases hz : s.current = []
    · rw [hz]
      exact ⟨s, rfl⟩
    · have hnz : (!com_biguint_is_zero s.current) = true := by
        unfold com_biguint_is_zero
        have : s.current.length ≠ 0 := fun e => hz (List.length_eq_zero.mp e)
        simp [this]
      rw [if_pos hnz]
      have h1 : 1 ≤ value s.current := one_le_value _ nc hz
      have hdz : s.denom ≠ [] := ne_nil_of_one_le_value _ (by omega)
      obtain ⟨c, hc, _, _⟩ := com_biguint_cmp_total s.denom s.tmp
      rw [hc, bind_ok]
      have hdt : ∃ dt : List Nat × List Nat,
          (if c ≠ com_math_LESS then
            com_biguint_sub fresh s.tmp Operand.dest (Operand.other s.denom) >>= fun tmp =>
            com_biguint_or fresh s.dest (Operand.other s.current) Operand.dest >>= fun dest =>
            pure (dest, tmp)
          else pure (s.dest, s.tmp)) = Except.ok dt := by
        by_cases hl : c ≠ com_math_LESS
        · rw [if_pos hl]
          obtain ⟨c2, hc2, _, _⟩ := com_biguint_cmp_total s.tmp s.denom
          have hg : c2 ≠ com_math_GREATER := by
            intro e
            rw [e] at hc2
            have := com_biguint_cmp_swap _ _ hc2
            rw [hc] at this
            injection this with this
            exact hl this
          rw [(com_biguint_sub_of_cmp fresh s.tmp Operand.dest (Operand.other s.denom) c2
            hc2).2 hg, bind_ok]
          have hor : ∃ r, com_biguint_or fresh s.dest (Operand.other s.current) Operand.dest
              = Except.ok r := by
            unfold com_biguint_or
            by_cases hlen : (Operand.dest.view s.dest).length
                > ((Operand.other s.current).view s.dest).length
            · rw [if_pos hlen]
              exact ⟨_, internal_value_or_eq fresh s.dest Operand.dest
                (Operand.other s.current) (by omega)⟩
            · rw [if_neg hlen]
              exact ⟨_, internal_value_or_eq fresh s.dest (Operand.other s.current)
                Operand.dest (by omega)⟩
          obtain ⟨r, hr⟩ := hor
          rw [hr, bind_ok]
          exact ⟨_, rfl⟩
        · rw [if_neg hl]
          exact ⟨_, rfl⟩
      obtain ⟨dt, hdt⟩ := hdt
      rw [hdt, bind_ok]
      obtain ⟨c1, hr1, v1, w1, n1, l1⟩ :=
        com_biguint_rshift_in_place_spec fresh s.current hz hlc wc nc
      obtain ⟨d1, hr2, v2, w2, n2, l2⟩ :=
        com_biguint_rshift_in_place_spec fresh s.denom hdz hld wd nd
      rw [hr1, bind_ok, hr2, bind_ok]
      apply ih
      · show value c1 < fuel
        omega
      · exact w1
      · exact n1
      · exact w2
      · exact n2
      · show value c1 ≤ value d1
        rw [v1, v2]
        exact Nat.div_le_div_right hcd
      · show c1.length < 2 ^ 64
        omega
      · show d1.length < 2 ^ 64
        omega

/-- C30: for normalized a and b of 32-bit words with b nonzero (each possibly the
destination itself, and short enough for their lengths to be machine sizes), both loops of
`com_biguint_div` terminate: with a fuel of at least the value of a plus two the function
returns a quotient, without a fault.  A right shift of a zero value would be such a fault,
as the shift of the empty sequence in place shows. -/
theorem com_biguint_div_terminates (fresh : Nat → Nat) (d : List Nat) (a b : Operand)
    (fuel : Nat) (wa : wellFormed (a.view d)) (na : normalized (a.view d))
    (wb : wellFormed (b.view d)) (nb : normalized (b.view d)) (hb : b.view d ≠ [])
    (la : (a.view d).length + 1 < 2 ^ 64) (lb : (b.view d).length < 2 ^ 64)
    (hf : value (a.view d) + 2 ≤ fuel) :
    (∃ q, com_biguint_div fresh fuel d a b = Except.ok q) ∧
    com_biguint_rshift fresh [] Operand.dest 1 = Except.error Fault.outOfBounds := by
  constructor
  · unfold com_biguint_div
    have hnz : (!com_biguint_is_zero (b.view d)) = true := by
      unfold com_biguint_is_zero
      have : (b.view d).length ≠ 0 := fun e => hb (List.length_eq_zero.mp e)
      simp [this]
    have h1b : 1 ≤ value (b.view d) := one_le_value _ nb hb
    rw [hnz, com_assert_m_true, bind_ok, com_biguint_set_u64_eq fresh [] 1 (by norm_num),
      bind_ok, com_biguint_set_other, bind_ok, com_biguint_set_other, bind_ok,
      com_biguint_set_u64_zero, if_neg (by norm_num), if_pos (by norm_num)]
    obtain ⟨cur1, den1, hdd, wc, nc, wd, nd, h1, hcd, hbd, hl⟩ :=
      div_double_total fresh (a.view d) wa na la fuel [1] (b.view d) (by omega)
        (by decide) (by decide) wb nb (by decide)
        (by rw [show value [1] = 1 from rfl]; exact h1b) (Or.inl (by decide)) lb
    rw [hdd, bind_ok]
    have hcn : cur1 ≠ [] := ne_nil_of_one_le_value cur1 h1
    have hdn : den1 ≠ [] := ne_nil_of_one_le_value den1 (by omega)
    have hlc : cur1.length < 2 ^ 64 := by
      have := length_le_of_value_le cur1 den1 wd nc hcd
      omega
    obtain ⟨c2, hr1, v1, w1, n1, l1⟩ :=
      com_biguint_rshift_in_place_spec fresh cur1 hcn hlc wc nc
    obtain ⟨d2, hr2, v2, w2, n2, l2⟩ :=
      com_biguint_rshift_in_place_spec fresh den1 hdn hl wd nd
    simp only [hr1, hr2, bind_ok]
    obtain ⟨s1, hs1⟩ := div_main_total fresh fuel
      { dest := [], current := c2, denom := d2, tmp := a.view d }
      (by show value c2 < fuel; omega) w1 n1 w2 n2
      (by show value c2 ≤ value d2; rw [v1, v2]; exact Nat.div_le_div_right hcd)
      (by show c2.length < 2 ^ 64; omega) (by show d2.length < 2 ^ 64; omega)
    rw [hs1, bind_ok]
    exact ⟨_, rfl⟩
  · rfl

/-- C30, at a = [100] and b = [7] with a fuel of 102. -/
theorem com_biguint_div_terminates_witness :
    (wellFormed [100] ∧ normalized [100] ∧ wellFormed [7] ∧ normalized [7] ∧
      [7] ≠ ([] : List Nat) ∧ [100].length + 1 < 2 ^ 64 ∧ [7].length < 2 ^ 64 ∧
      value [100] + 2 ≤ 102) ∧
    (∃ q, com_biguint_div noFresh 102 [] (Operand.other [100]) (Operand.other [7])
      = Except.ok q) ∧
    com_biguint_rshift noFresh [] Operand.dest 1 = Except.error Fault.outOfBounds :=
  ⟨by decide,
   com_biguint_div_terminates noFresh [] (Operand.other [100]) (Operand.other [7]) 102
     (by decide) (by decide) (by decide) (by decide) (by decide) (by decide) (by decide)
     (by decide)⟩

/-! ## The claim C31 -/

/-- C31: for all a and b (either may be the destination itself) with len(a) ≥ len(b) on which
`com_biguint_sub` does not fail its precondition, `com_biguint_sub` leaves exactly the words
`com_biguint_add` leaves on the same arguments: both return what the addition helper
`internal_value_add_u32_arr` writes for a and b. -/
theorem com_biguint_sub_eq_add (fresh : Nat → Nat) (d : List Nat) (a b : Operand)
    (hl : (b.view d).length ≤ (a.view d).length)
    (hs : com_biguint_sub fresh d a b ≠ Except.error Fault.assertion) :
    com_biguint_sub fresh d a b = com_biguint_add fresh d a b ∧
    com_biguint_sub fresh d a b = Except.ok (add_words (a.view d) (b.view d)) ∧
    com_biguint_sub fresh d a b
      = internal_value_add_u32_arr fresh d a (a.view d).length b (b.view d).length := by
  obtain ⟨c, hc, _, _⟩ := com_biguint_cmp_total (a.view d) (b.view d)
  have h := com_biguint_sub_of_cmp fresh d a b c hc
  have hg : c ≠ com_math_GREATER := fun e => hs (h.1 e)
  have hsub := h.2 hg
  have hadd := internal_value_add_u32_arr_eq fresh d a b hl
  refine ⟨?_, hsub, ?_⟩
  · unfold com_biguint_add
    dsimp only
    rw [if_pos hl, hadd, hsub]
  · rw [hsub, hadd]

/-- C31, at a = [5] and b = [3], where both leave [8], and at a = [4294967295, 7] held by the
destination and b = [1]. -/
theorem com_biguint_sub_eq_add_witness :
    (((Operand.other [3]).view []).length ≤ ((Operand.other [5]).view []).length ∧
      com_biguint_sub noFresh [] (Operand.other [5]) (Operand.other [3])
        ≠ Except.error Fault.assertion ∧
      com_biguint_sub noFresh [] (Operand.other [5]) (Operand.other [3])
        = com_biguint_add noFresh [] (Operand.other [5]) (Operand.other [3]) ∧
      com_biguint_add noFresh [] (Operand.other [5]) (Operand.other [3]) = Except.ok [8]) ∧
    (((Operand.other [1]).view [4294967295, 7]).length
        ≤ (Operand.dest.view [4294967295, 7]).length ∧
      com_biguint_sub noFresh [4294967295, 7] Operand.dest (Operand.other [1])
        ≠ Except.error Fault.assertion ∧
      com_biguint_sub noFresh [4294967295, 7] Operand.dest (Operand.other [1])
        = com_biguint_add noFresh [4294967295, 7] Operand.dest (Operand.other [1])) :=
  ⟨⟨by decide, by decide,
    (com_biguint_sub_eq_add noFresh [] (Operand.other [5]) (Operand.other [3])
      (by decide) (by decide)).1, by decide⟩,
   ⟨by decide, by decide,
    (com_biguint_sub_eq_add noFresh [4294967295, 7] Operand.dest (Operand.other [1])
      (by decide) (by decide)).1⟩⟩

end ComBigUint
